import Mathlib

/-!
Verification development for the Stile scanning engine.

The definitions below are a shallow embedding of the engine in
packages/core/src/index.ts and of the plugins exercised by the claims in
packages/plugins/src/index.ts, over the shared interfaces of
packages/types.  Conventions of the embedding:

* TypeScript string fields that a plugin may omit (undefined) are modelled
  as the empty string: the engine backfills them with the JavaScript
  logical-or operator, which treats undefined and the empty string alike,
  so the model function jsOr is faithful on both.
* The ambient clock (new Date().toISOString()) is modelled as a fixed
  instant parameter now; the resolved git commit and the scan duration are
  likewise parameters.  Regular expressions used as file matchers are
  modelled as Boolean predicates on paths; the two concrete regular
  expressions the claims depend on (the jsx file test and the inline-style
  pattern) are implemented as executable character scanners.
* Dynamic module resolution, the file system tree and file reading are
  modelled as function parameters; a resolution or read failure is None,
  matching a thrown exception at the corresponding call site.
* Warnings printed with console.warn are modelled as a list of LogEvent
  values; purely informational console.log output is not modelled.
-/

set_option maxHeartbeats 1000000

namespace Stile

/-- Severity of a finding, from the shared types package. -/
inductive Severity
  | info
  | warn
  | error
deriving DecidableEq, Repr

/-- One detected issue, the Finding interface of the types package.
Optional string fields use the empty string for an omitted value; the
free-form metadata record is not modelled. -/
structure Finding where
  plugin : String
  message : String
  severity : Severity
  file : String
  project : String
  timestamp : String
  line : Option Nat := none
  column : Option Nat := none
  commit : String := ""
deriving DecidableEq, Repr

/-- Component category, derived from the import source by prefix
classification. -/
inductive Category
  | designSystem
  | custom
  | thirdParty
deriving DecidableEq, Repr

/-- One aggregated component usage observation, the ComponentInsight
interface of the types package. -/
structure ComponentInsight where
  project : String
  file : String
  component : String
  source : String
  category : Category
  occurrences : Nat
  props : List String
  commit : String := ""
  framework : String := ""
deriving DecidableEq, Repr

/-- Per-reference plugin options, an opaque key-value record. -/
abbrev Options := List (String × String)

/-- The per-file mutable context handed to every plugin. -/
structure StileContext where
  filePath : String
  project : String
  source : String
  findings : List Finding
  components : List ComponentInsight
  commit : String

/-- The effect of one plugin invocation on the context: the findings and
components lists after the call, and whether the call threw.  A plugin
that throws after mutating the context reports its mutated lists together
with throwsAfter set to true, matching the JavaScript semantics in which
array mutations performed before the exception survive it. -/
structure RunOutcome where
  findings : List Finding
  components : List ComponentInsight
  throwsAfter : Bool

/-- The StilePlugin contract: a name, an optional secondary file matcher,
and the run operation. -/
structure StilePlugin where
  name : String
  test : Option (String → Bool) := none
  run : StileContext → Option Options → RunOutcome

/-- A plugin reference in a rule: either a bare name or a name with
options. -/
structure PluginRef where
  name : String
  options : Option Options := none

/-- A configuration rule: an optional file matcher and a plugin reference
list. -/
structure StileRule where
  test : Option (String → Bool) := none
  plugins : List PluginRef

/-- The engine configuration: root directory, rules and exclude globs
(each glob modelled as a predicate on root-relative paths). -/
structure StileConfig where
  rootDir : String
  rules : List StileRule
  exclude : List (String → Bool) := []

/-- Warnings the engine prints while scanning. -/
inductive LogEvent
  | pluginLoadFailed (name : String)
  | fileScanFailed (file : String)
  | pluginRunFailed (plugin : String) (file : String)
deriving DecidableEq, Repr

/-- The plugin registry: an insertion-ordered association list, modelling
the JavaScript Map. -/
abbrev Registry := List (String × StilePlugin)

/-- Map lookup: first entry with the given key. -/
def regGet? : Registry → String → Option StilePlugin
  | [], _ => none
  | (k, v) :: rest, name => if k = name then some v else regGet? rest name

/-- Map set: replace the entry with the given key in place, or append. -/
def regSet : Registry → String → StilePlugin → Registry
  | [], k, v => [(k, v)]
  | (k', v') :: rest, k, v =>
    if k' = k then (k, v) :: rest else (k', v') :: regSet rest k v

/-- JavaScript logical or on strings, where the empty string models a
falsy (omitted) value. -/
def jsOr (a b : String) : String := if a = "" then b else a

/-- Engine-side defaulting of omitted finding fields after a plugin
invocation returns, lines 191-198 of the core package. -/
def fillFinding (name project file now commit : String) (f : Finding) : Finding :=
  { f with
      plugin := jsOr f.plugin name,
      project := jsOr f.project project,
      file := jsOr f.file file,
      timestamp := jsOr f.timestamp now,
      commit := jsOr f.commit commit }

/-- Engine-side defaulting of omitted component fields, lines 200-205 of
the core package; note that only project, file and commit are defaulted. -/
def fillComponent (project file commit : String) (c : ComponentInsight) : ComponentInsight :=
  { c with
      project := jsOr c.project project,
      file := jsOr c.file file,
      commit := jsOr c.commit commit }

/-- Apply a function to every list element whose index is at least start;
this models the backfill loops that run from the recorded start index to
the end of the mutated array. -/
def mapFrom {α : Type} : Nat → (α → α) → List α → List α
  | _, _, [] => []
  | 0, g, x :: xs => g x :: mapFrom 0 g xs
  | s + 1, g, x :: xs => x :: mapFrom s g xs

/-- fileMatchesRule of the engine: a rule with no matcher accepts every
path. -/
def fileMatchesRule (filePath : String) (test : Option (String → Bool)) : Bool :=
  match test with
  | none => true
  | some t => t filePath

/-- The secondary matcher check on a plugin definition: a plugin with a
test is skipped when the path does not match it. -/
def pluginAccepts (d : StilePlugin) (filePath : String) : Bool :=
  match d.test with
  | none => true
  | some t => t filePath

/-- The per-file accumulation state of scanFile: the shared findings and
components sequences and the warnings emitted so far. -/
structure FileState where
  findings : List Finding
  components : List ComponentInsight
  log : List LogEvent

/-- One plugin reference processed inside scanFile, lines 179-208 of the
core package: resolve the reference from the registry, skip silently when
absent, skip when the secondary matcher rejects the path, otherwise invoke
run; on a throw keep the mutated lists and log a warning, on normal return
backfill the entries appended since the recorded start indices. -/
def runPluginRef (reg : Registry) (project filePath source now commit : String)
    (s : FileState) (ref : PluginRef) : FileState :=
  match regGet? reg ref.name with
  | none => s
  | some d =>
    if pluginAccepts d filePath then
      let ctx : StileContext :=
        ⟨filePath, project, source, s.findings, s.components, commit⟩
      let out := d.run ctx ref.options
      if out.throwsAfter then
        ⟨out.findings, out.components,
         s.log ++ [LogEvent.pluginRunFailed d.name filePath]⟩
      else
        ⟨mapFrom s.findings.length (fillFinding d.name project filePath now commit) out.findings,
         mapFrom s.components.length (fillComponent project filePath commit) out.components,
         s.log⟩
    else s

/-- One rule processed inside scanFile: when the rule matcher accepts the
path, fold the plugin references of the rule over the state. -/
def scanRuleStep (reg : Registry) (root filePath source now commit : String)
    (s : FileState) (rule : StileRule) : FileState :=
  if fileMatchesRule filePath rule.test then
    rule.plugins.foldl (runPluginRef reg root filePath source now commit) s
  else s

/-- scanFile of the engine: fresh findings and components sequences, then
for each rule whose matcher accepts the path, each plugin reference in
order. -/
def scanFile (reg : Registry) (cfg : StileConfig) (now commit : String)
    (filePath source : String) : FileState :=
  cfg.rules.foldl (scanRuleStep reg cfg.rootDir filePath source now commit) ⟨[], [], []⟩

/-- Join the root directory and a root-relative path into the absolute
path the glob call returns. -/
def joinPath (root rel : String) : String := root ++ "/" ++ rel

/-- findFiles of the engine: glob the tree below the root with the exclude
globs applied to root-relative paths, produce absolute paths, then keep
the paths some rule matcher accepts.  Rule matchers are applied to the
absolute path, exactly as in the source. -/
def findFiles (cfg : StileConfig) (tree : List String) : List String :=
  ((tree.filter (fun rel => !(cfg.exclude.any (fun g => g rel)))).map
      (joinPath cfg.rootDir)).filter
    (fun file => cfg.rules.any (fun rule => fileMatchesRule file rule.test))

/-- First-occurrence deduplication with an accumulator of already seen
values; models iteration order of a JavaScript Set. -/
def dedupSeen (seen : List String) : List String → List String
  | [] => []
  | x :: xs =>
    if seen.contains x then dedupSeen seen xs else x :: dedupSeen (x :: seen) xs

/-- Deduplicate keeping first occurrences. -/
def dedupKeepFirst (l : List String) : List String := dedupSeen [] l

/-- The deduplicated plugin name list the scan collects from the rules. -/
def pluginNamesOf (cfg : StileConfig) : List String :=
  dedupKeepFirst ((cfg.rules.map (fun r => r.plugins.map (fun p => p.name))).flatten)

/-- One name processed by ensurePlugins: an already registered name is
skipped, otherwise resolution is attempted; a resolved plugin is
registered under its own name field, a failed resolution is logged as a
warning and skipped. -/
def ensureStep (resolve : String → Option StilePlugin)
    (acc : Registry × List LogEvent) (name : String) : Registry × List LogEvent :=
  if (regGet? acc.1 name).isSome then acc
  else
    match resolve name with
    | some p => (regSet acc.1 p.name p, acc.2)
    | none => (acc.1, acc.2 ++ [LogEvent.pluginLoadFailed name])

/-- ensurePlugins of the engine, lines 36-46 of the core package. -/
def ensurePlugins (resolve : String → Option StilePlugin) (init : Registry)
    (names : List String) : Registry × List LogEvent :=
  names.foldl (ensureStep resolve) (init, [])

/-- The accumulation state of the file loop in scan. -/
structure ScanState where
  findings : List Finding
  components : List ComponentInsight
  filesScanned : Nat
  log : List LogEvent

/-- One file processed by the loop in scan, lines 98-107 of the core
package: a failed read is caught, logged and skipped; otherwise the
scanFile results are appended and filesScanned incremented. -/
def scanFileStep (reg : Registry) (readFile : String → Option String) (cfg : StileConfig)
    (now commit : String) (acc : ScanState) (file : String) : ScanState :=
  match readFile file with
  | none => { acc with log := acc.log ++ [LogEvent.fileScanFailed file] }
  | some source =>
    let r := scanFile reg cfg now commit file source
    ⟨acc.findings ++ r.findings, acc.components ++ r.components,
     acc.filesScanned + 1, acc.log ++ r.log⟩

/-- JavaScript Math.round of the exact rational num / den for a positive
denominator: the floor of the quotient plus one half.  Integer division on
Int is Euclidean division, which is the floor for a positive divisor. -/
def jsRound (num den : Int) : Int := (2 * num + den) / (2 * den)

/-- calculateAdherenceScore of the engine: 100 for an empty scan,
otherwise the clamped rounded violation-rate complement. -/
def calculateAdherenceScore (filesScanned violations : Nat) : Int :=
  if filesScanned = 0 then 100
  else max 0 (jsRound (((filesScanned : Int) - (violations : Int)) * 100) (filesScanned : Int))

/-- Scan metadata block of the report. -/
structure ScanMeta where
  project : String
  commit : String
  timestamp : String
  version : String
deriving DecidableEq, Repr

/-- Summary block of the report. -/
structure ScanSummary where
  filesScanned : Nat
  violations : Nat
  adherenceScore : Int
  duration : Nat
deriving DecidableEq, Repr

/-- Derived metrics block of the report. -/
structure ScanMetrics where
  componentsAnalyzed : Nat
  designSystemComponents : Nat
  customComponents : Nat
deriving DecidableEq, Repr

/-- The terminal scan artifact. -/
structure ScanReport where
  meta : ScanMeta
  findings : List Finding
  summary : ScanSummary
  components : List ComponentInsight
  metrics : ScanMetrics
deriving DecidableEq, Repr

/-- The violation count: findings whose severity is not info. -/
def countViolations (l : List Finding) : Nat :=
  (l.filter (fun f => f.severity != Severity.info)).length

/-- scan of the engine, lines 80-141 of the core package: collect and
deduplicate the referenced plugin names, resolve them, select the files,
process each file with the per-file pipeline, then assemble the report.
The ambient clock, resolved commit and elapsed duration are parameters. -/
def scan (resolve : String → Option StilePlugin) (reg0 : Registry) (tree : List String)
    (readFile : String → Option String) (cfg : StileConfig) (now commit : String)
    (duration : Nat) : ScanReport × List LogEvent :=
  let resolved := ensurePlugins resolve reg0 (pluginNamesOf cfg)
  let files := findFiles cfg tree
  let st := files.foldl (scanFileStep resolved.1 readFile cfg now commit)
    ⟨[], [], 0, resolved.2⟩
  let violations := countViolations st.findings
  (⟨⟨cfg.rootDir, commit, now, "0.0.0"⟩,
    st.findings,
    ⟨st.filesScanned, violations, calculateAdherenceScore st.filesScanned violations, duration⟩,
    st.components,
    ⟨st.components.length,
     (st.components.filter (fun c => c.category == Category.designSystem)).length,
     (st.components.filter (fun c => c.category == Category.custom)).length⟩⟩,
   st.log)

/-! ### Built-in plugins exercised by the claims -/

/-- The jsx file matcher of the plugins package: the regular expression
accepting paths that end in .tsx or .jsx, implemented on the reversed
character list. -/
def jsxTest (p : String) : Bool :=
  match p.data.reverse with
  | 'x' :: 's' :: 't' :: '.' :: _ => true
  | 'x' :: 's' :: 'j' :: '.' :: _ => true
  | _ => false

/-- JavaScript whitespace characters matched by the s character class. -/
def isJsSpace (c : Char) : Bool :=
  c == ' ' || c == '\t' || c == '\n' || c == '\r' || c == '\x0b' || c == '\x0c'

/-- Split a leading run of whitespace from a character list. -/
def spanWs : List Char → List Char × List Char
  | [] => ([], [])
  | c :: rest =>
    if isJsSpace c then
      let r := spanWs rest
      (c :: r.1, r.2)
    else ([], c :: rest)

/-- Split a leading run of characters other than a closing brace. -/
def spanNonBrace : List Char → List Char × List Char
  | [] => ([], [])
  | c :: rest =>
    if c == '}' then ([], c :: rest)
    else
      let r := spanNonBrace rest
      (c :: r.1, r.2)

/-- Match a literal character sequence at the head of a list, returning
the remainder on success. -/
def matchLit : List Char → List Char → Option (List Char)
  | [], s => some s
  | _ :: _, [] => none
  | c :: cs, d :: ds => if c == d then matchLit cs ds else none

/-- Match the inline-style regular expression of the no-inline-style
plugin at the head of the list: the literal style, optional whitespace, an
equals sign, optional whitespace, an opening brace, a run of characters
other than a closing brace, and a closing brace.  Greedy matching is exact
here because neither whitespace run can absorb the following delimiter and
the inner run can never absorb the closing brace. -/
def matchInlineStyleAt (s : List Char) : Option (List Char × List Char) :=
  match matchLit ['s', 't', 'y', 'l', 'e'] s with
  | none => none
  | some r1 =>
    let w1 := spanWs r1
    match w1.2 with
    | '=' :: r3 =>
      let w2 := spanWs r3
      match w2.2 with
      | '{' :: r5 =>
        let b := spanNonBrace r5
        match b.2 with
        | '}' :: r7 =>
          some (['s', 't', 'y', 'l', 'e'] ++ w1.1 ++ '=' :: w2.1 ++ '{' :: b.1 ++ ['}'], r7)
        | _ => none
      | _ => none
    | _ => none

/-- Global scan for the inline-style pattern: at each position try a
match; on success continue after the match, on failure advance one
character.  The fuel argument bounds the iteration count by the input
length. -/
def inlineStyleScan : Nat → List Char → List (List Char)
  | 0, _ => []
  | _ + 1, [] => []
  | fuel + 1, c :: rest =>
    match matchInlineStyleAt (c :: rest) with
    | some m => m.1 :: inlineStyleScan fuel m.2
    | none => inlineStyleScan fuel rest

/-- All matches of the inline-style pattern in a source text, in order. -/
def inlineStyleMatches (s : String) : List String :=
  (inlineStyleScan s.data.length s.data).map (fun cs => String.mk cs)

/-- The finding the no-inline-style plugin pushes for one match: the
message carries the first sixty characters of the match. -/
def inlineStyleFinding (now filePath project : String) (m : String) : Finding :=
  { plugin := "@stile/plugin-no-inline-style",
    message := "Inline style detected: " ++ String.mk (m.data.take 60) ++ "…",
    severity := Severity.warn,
    file := filePath,
    project := project,
    timestamp := now }

/-- The no-inline-style plugin, lines 10-29 of the plugins package: push
one warn finding per match of the inline-style pattern. -/
def noInlineStylePlugin (now : String) : StilePlugin :=
  { name := "@stile/plugin-no-inline-style",
    test := some jsxTest,
    run := fun ctx _ =>
      ⟨ctx.findings ++
          (inlineStyleMatches ctx.source).map (inlineStyleFinding now ctx.filePath ctx.project),
        ctx.components, false⟩ }

/-- String comparison by code units, the default JavaScript array sort
order, as a Boolean relation on characters lists. -/
def charListLeb : List Char → List Char → Bool
  | [], _ => true
  | _ :: _, [] => false
  | c :: cs, d :: ds =>
    if c.toNat < d.toNat then true
    else if d.toNat < c.toNat then false
    else charListLeb cs ds

/-- String comparison by code units. -/
def strLeb (a b : String) : Bool := charListLeb a.data b.data

/-- Sort a string list in code-unit order. -/
def sortStrings (l : List String) : List String := l.mergeSort strLeb

/-- Prefix test on the underlying character lists. -/
def strStartsWith (s pre : String) : Bool := pre.data.isPrefixOf s.data

/-- One sighting of a capitalized JSX element: the tag name, the
resolved import source (a dot for a locally defined component), and the attribute
names observed, with the spread sentinel included.  The abstract syntax
tree walk and import-map resolution of the react-component-analysis
plugin are abstracted into the sighting list its run folds over. -/
structure Sighting where
  component : String
  source : String
  props : List String

/-- The design-system source prefixes of the plugins package. -/
def designSystemPrefixes : List String := ["@mui/", "@stile/", "@ds/", "@design-system/"]

/-- Category classification of an import source by prefix, from the
react-component-analysis plugin. -/
def categorize (source : String) : Category :=
  if source == "." || strStartsWith source "." then Category.custom
  else if designSystemPrefixes.any (fun p => strStartsWith source p) then Category.designSystem
  else Category.thirdParty

/-- Set union of two prop lists in JavaScript semantics: spread both into
a Set, keeping first occurrences, then sort. -/
def propsUnion (a b : List String) : List String := sortStrings (dedupKeepFirst (a ++ b))

/-- Apply a function to the first list element satisfying a predicate,
modelling an in-place mutation of the found array element. -/
def updateFirst {α : Type} (p : α → Bool) (g : α → α) : List α → List α
  | [] => []
  | x :: xs => if p x then g x :: xs else x :: updateFirst p g xs

/-- The merge predicate of the react-component-analysis plugin, lines
211-213 of the plugins package: same component, same source, same file.
The project field is not part of the lookup in the source. -/
def insightMatches (component source file : String) (e : ComponentInsight) : Bool :=
  e.component == component && e.source == source && e.file == file

/-- Record one sighting, lines 211-230 of the plugins package: merge into
the first existing record with the same component, source and file by
incrementing occurrences and unioning props, or append a fresh record. -/
def mergeSighting (project file commit : String) (comps : List ComponentInsight)
    (t : Sighting) : List ComponentInsight :=
  if comps.any (insightMatches t.component t.source file) then
    updateFirst (insightMatches t.component t.source file)
      (fun e => { e with occurrences := e.occurrences + 1, props := propsUnion e.props t.props })
      comps
  else
    comps ++
      [{ project := project, file := file, component := t.component, source := t.source,
         category := categorize t.source, occurrences := 1,
         props := sortStrings (dedupKeepFirst t.props), commit := commit,
         framework := "react" }]

/-- The react-component-analysis plugin, parameterized by the extraction
of sightings from a source text (the ts-morph parse): fold every sighting
into the shared components sequence. -/
def reactComponentAnalysisPlugin (extract : String → List Sighting) : StilePlugin :=
  { name := "@stile/plugin-react-component-analysis",
    test := some jsxTest,
    run := fun ctx _ =>
      ⟨ctx.findings,
       (extract ctx.source).foldl (mergeSighting ctx.project ctx.filePath ctx.commit)
         ctx.components,
       false⟩ }

/-- Modelled from the spec for comparison in claim C5: the file selector
as the specification words it, with rule matchers applied to the path
relative to the root rather than to the absolute path the source passes
them. -/
def findFilesSpecRel (cfg : StileConfig) (tree : List String) : List String :=
  (tree.filter (fun rel =>
      !(cfg.exclude.any (fun g => g rel)) &&
        cfg.rules.any (fun rule => fileMatchesRule rel rule.test))).map
    (joinPath cfg.rootDir)

/-! ### Behavioural predicates on plugins -/

/-- A plugin that only appends to the context sequences, the usage
convention of the specification: its run output extends the input
findings and components lists. -/
def AppendOnly (p : StilePlugin) : Prop :=
  ∀ ctx opts, ∃ tf tc, (p.run ctx opts).findings = ctx.findings ++ tf ∧
    (p.run ctx opts).components = ctx.components ++ tc

/-- A plugin whose run never throws. -/
def NeverThrows (p : StilePlugin) : Prop :=
  ∀ ctx opts, (p.run ctx opts).throwsAfter = false

/-- A plugin that attributes its appended findings only to itself, or
leaves the producer field for the engine to backfill. -/
def OwnAttribution (p : StilePlugin) : Prop :=
  ∀ ctx opts tf, (p.run ctx opts).findings = ctx.findings ++ tf →
    ∀ f ∈ tf, f.plugin = "" ∨ f.plugin = p.name

/-- A property holding of every plugin reachable through the registry. -/
def RegAll (reg : Registry) (P : StilePlugin → Prop) : Prop :=
  ∀ k p, regGet? reg k = some p → P p

/-- The step obligation of the invariant machinery: for every plugin
reachable through the registry and every context state satisfying the
invariant, the state after the invocation (with engine backfill on normal
return, without it on a throw) satisfies it again. -/
def StepInv (reg : Registry) (root now commit : String)
    (FileOk : String → Prop) (P : Finding → Prop) (Q : ComponentInsight → Prop) : Prop :=
  ∀ k p, regGet? reg k = some p →
    ∀ filePath source fs cs opts, FileOk filePath →
      (∀ f ∈ fs, P f) → (∀ c ∈ cs, Q c) →
      (((p.run ⟨filePath, root, source, fs, cs, commit⟩ opts).throwsAfter = true →
          (∀ f ∈ (p.run ⟨filePath, root, source, fs, cs, commit⟩ opts).findings, P f) ∧
            ∀ c ∈ (p.run ⟨filePath, root, source, fs, cs, commit⟩ opts).components, Q c) ∧
        ((p.run ⟨filePath, root, source, fs, cs, commit⟩ opts).throwsAfter = false →
          (∀ f ∈ mapFrom fs.length (fillFinding p.name root filePath now commit)
              (p.run ⟨filePath, root, source, fs, cs, commit⟩ opts).findings, P f) ∧
            ∀ c ∈ mapFrom cs.length (fillComponent root filePath commit)
              (p.run ⟨filePath, root, source, fs, cs, commit⟩ opts).components, Q c))

/-- A plugin that throws without touching the context. -/
def ThrowingNoop (p : StilePlugin) : Prop :=
  ∀ ctx opts, p.run ctx opts = ⟨ctx.findings, ctx.components, true⟩

/-! ### Erasure of run-dependent report fields -/

/-- Erase the timestamp and commit of a finding. -/
def eraseFinding (f : Finding) : Finding := { f with timestamp := "", commit := "" }

/-- Erase the commit of a component record. -/
def eraseComponent (c : ComponentInsight) : ComponentInsight := { c with commit := "" }

/-- Erase the clock, commit and duration data of a report. -/
def eraseReport (r : ScanReport) : ScanReport :=
  { r with
      meta := { r.meta with commit := "", timestamp := "" },
      findings := r.findings.map eraseFinding,
      components := r.components.map eraseComponent,
      summary := { r.summary with duration := 0 } }

/-- Two plugin run functions that agree up to erasure: on contexts with
the same path, project, source and options, and context sequences equal
after erasure, the outputs throw together and their sequences are equal
after erasure.  The context commits are unconstrained. -/
def RunSim (p₁ p₂ : StilePlugin) : Prop :=
  ∀ filePath project source opts fs₁ fs₂ cs₁ cs₂ c₁ c₂,
    fs₁.map eraseFinding = fs₂.map eraseFinding →
    cs₁.map eraseComponent = cs₂.map eraseComponent →
    (p₁.run ⟨filePath, project, source, fs₁, cs₁, c₁⟩ opts).throwsAfter =
        (p₂.run ⟨filePath, project, source, fs₂, cs₂, c₂⟩ opts).throwsAfter ∧
      (p₁.run ⟨filePath, project, source, fs₁, cs₁, c₁⟩ opts).findings.map eraseFinding =
        (p₂.run ⟨filePath, project, source, fs₂, cs₂, c₂⟩ opts).findings.map eraseFinding ∧
      (p₁.run ⟨filePath, project, source, fs₁, cs₁, c₁⟩ opts).components.map eraseComponent =
        (p₂.run ⟨filePath, project, source, fs₂, cs₂, c₂⟩ opts).components.map eraseComponent

/-- Plugins that are interchangeable up to erasure: same name, same
secondary matcher behaviour, similar runs. -/
def PluginSim (p₁ p₂ : StilePlugin) : Prop :=
  p₁.name = p₂.name ∧ (∀ fp, pluginAccepts p₁ fp = pluginAccepts p₂ fp) ∧ RunSim p₁ p₂

/-- Registries aligned entry by entry with equal keys and similar
plugins. -/
def RegistrySim (r₁ r₂ : Registry) : Prop :=
  List.Forall₂ (fun e₁ e₂ => e₁.1 = e₂.1 ∧ PluginSim e₁.2 e₂.2) r₁ r₂

/-- Optional plugins that are both absent or both present and similar. -/
def OptionPluginSim : Option StilePlugin → Option StilePlugin → Prop
  | none, none => True
  | some p₁, some p₂ => PluginSim p₁ p₂
  | _, _ => False

/-- Resolution functions similar at every name. -/
def ResolveSim (res₁ res₂ : String → Option StilePlugin) : Prop :=
  ∀ n, OptionPluginSim (res₁ n) (res₂ n)

/-! ### Concrete gadgets used by counterexamples and witnesses -/

/-- A plugin that appends one finding and one component record with every
defaultable field omitted and then throws. -/
def omittingThrowingPlugin : StilePlugin :=
  { name := "omit-then-throw", test := none,
    run := fun ctx _ =>
      ⟨ctx.findings ++
          [{ plugin := "", message := "m", severity := Severity.error,
             file := "", project := "", timestamp := "" }],
        ctx.components ++
          [{ project := "", file := "", component := "", source := "x",
             category := Category.custom, occurrences := 1, props := [] }],
        true⟩ }

/-- A plugin of the given name that does nothing and returns normally. -/
def quietPlugin (nm : String) : StilePlugin :=
  { name := nm, test := none, run := fun ctx _ => ⟨ctx.findings, ctx.components, false⟩ }

/-- A plugin of the given name that does nothing and throws, observably
different from the quiet plugin. -/
def loudPlugin (nm : String) : StilePlugin :=
  { name := nm, test := none, run := fun ctx _ => ⟨ctx.findings, ctx.components, true⟩ }

/-- A closed probe context. -/
def probeCtx : StileContext := ⟨"", "", "", [], [], ""⟩

/-! ### Scoring lemmas -/

theorem calc_score_nonneg (f v : Nat) : 0 ≤ calculateAdherenceScore f v := by
  unfold calculateAdherenceScore
  split
  · norm_num
  · exact le_max_left 0 _

theorem calc_score_le_100 (f v : Nat) : calculateAdherenceScore f v ≤ 100 := by
  unfold calculateAdherenceScore
  split
  · norm_num
  · rename_i hf
    have hfpos : (0 : Int) < (f : Int) := by
      exact_mod_cast Nat.pos_of_ne_zero hf
    have h2f : (0 : Int) < 2 * (f : Int) := by linarith
    have hv : (0 : Int) ≤ (v : Int) := Int.natCast_nonneg v
    apply max_le (by norm_num)
    unfold jsRound
    calc (2 * (((f : Int) - (v : Int)) * 100) + (f : Int)) / (2 * (f : Int))
        ≤ ((f : Int) + 100 * (2 * (f : Int))) / (2 * (f : Int)) := by
          apply Int.ediv_le_ediv h2f
          linarith
      _ = (f : Int) / (2 * (f : Int)) + 100 := Int.add_mul_ediv_right _ 100 (ne_of_gt h2f)
      _ = 0 + 100 := by
          rw [Int.ediv_eq_zero_of_lt (le_of_lt hfpos) (by linarith)]
      _ ≤ 100 := by norm_num

/-- C1: in every scan report the adherence score is 100 when no files were
scanned and otherwise max 0 (round (100 * (filesScanned - violations) /
filesScanned)); the formula at filesScanned 10 and violations 3 yields 70,
and the score always lies between 0 and 100. -/
theorem C1_adherence_score :
    (∀ resolve reg0 tree readFile cfg now commit duration,
      (scan resolve reg0 tree readFile cfg now commit duration).1.summary.adherenceScore =
        (if (scan resolve reg0 tree readFile cfg now commit duration).1.summary.filesScanned = 0
         then 100
         else max 0 (jsRound
            ((((scan resolve reg0 tree readFile cfg now commit duration).1.summary.filesScanned : Int) -
              ((scan resolve reg0 tree readFile cfg now commit duration).1.summary.violations : Int)) * 100)
            ((scan resolve reg0 tree readFile cfg now commit duration).1.summary.filesScanned : Int)))
      ∧ 0 ≤ (scan resolve reg0 tree readFile cfg now commit duration).1.summary.adherenceScore
      ∧ (scan resolve reg0 tree readFile cfg now commit duration).1.summary.adherenceScore ≤ 100)
    ∧ calculateAdherenceScore 10 3 = 70 := by
  constructor
  · intro resolve reg0 tree readFile cfg now commit duration
    refine ⟨rfl, calc_score_nonneg _ _, calc_score_le_100 _ _⟩
  · decide

/-- C2: in every scan report the summary violations field equals the
number of findings of the report whose severity is not info. -/
theorem C2_violations_count :
    ∀ resolve reg0 tree readFile cfg now commit duration,
      (scan resolve reg0 tree readFile cfg now commit duration).1.summary.violations =
        ((scan resolve reg0 tree readFile cfg now commit duration).1.findings.filter
          (fun f => f.severity != Severity.info)).length := by
  intro resolve reg0 tree readFile cfg now commit duration
  rfl

/-! ### General list and registry lemmas -/

theorem mapFrom_zero {α : Type} (g : α → α) (l : List α) : mapFrom 0 g l = l.map g := by
  induction l with
  | nil => rfl
  | cons x xs ih => simp [mapFrom, ih]

theorem mapFrom_append {α : Type} (g : α → α) (l t : List α) :
    mapFrom l.length g (l ++ t) = l ++ t.map g := by
  induction l with
  | nil => simpa using mapFrom_zero g t
  | cons x xs ih => simpa [mapFrom] using ih

theorem foldl_preserve {σ α : Type _} (f : σ → α → σ) (Inv : σ → Prop) :
    ∀ (l : List α) (s : σ), Inv s → (∀ s' a, a ∈ l → Inv s' → Inv (f s' a)) →
      Inv (l.foldl f s) := by
  intro l
  induction l with
  | nil => intro s h _; exact h
  | cons a as ih =>
    intro s h hstep
    exact ih (f s a) (hstep s a (by simp) h) (fun s' b hb hs' => hstep s' b (by simp [hb]) hs')

theorem mem_dedupSeen (x : String) :
    ∀ (l seen : List String), x ∈ dedupSeen seen l ↔ (x ∈ l ∧ x ∉ seen) := by
  intro l
  induction l with
  | nil => intro seen; simp [dedupSeen]
  | cons y ys ih =>
    intro seen
    simp only [dedupSeen, List.mem_cons]
    split
    · rename_i hy
      have hymem : y ∈ seen := by simpa using hy
      rw [ih]
      constructor
      · rintro ⟨hx, hns⟩; exact ⟨Or.inr hx, hns⟩
      · rintro ⟨hx | hx, hns⟩
        · exact absurd (by rw [hx]; exact hymem) hns
        · exact ⟨hx, hns⟩
    · rename_i hy
      have hymem : y ∉ seen := by simpa using hy
      simp only [List.mem_cons]
      constructor
      · rintro (hx | hx)
        · exact ⟨Or.inl hx, by rw [hx]; exact hymem⟩
        · rcases (ih (y :: seen)).mp hx with ⟨h1, h2⟩
          simp only [List.mem_cons, not_or] at h2
          exact ⟨Or.inr h1, h2.2⟩
      · rintro ⟨hx | hx, hns⟩
        · exact Or.inl hx
        · by_cases hxy : x = y
          · exact Or.inl hxy
          · exact Or.inr ((ih (y :: seen)).mpr ⟨hx, by simp [hxy, hns]⟩)

theorem mem_dedupKeepFirst (x : String) (l : List String) :
    x ∈ dedupKeepFirst l ↔ x ∈ l := by
  simp [dedupKeepFirst, mem_dedupSeen]

theorem mem_sortStrings (x : String) (l : List String) :
    x ∈ sortStrings l ↔ x ∈ l := by
  unfold sortStrings
  exact List.Perm.mem_iff (List.mergeSort_perm l strLeb)

theorem mem_propsUnion (x : String) (a b : List String) :
    x ∈ propsUnion a b ↔ (x ∈ a ∨ x ∈ b) := by
  simp [propsUnion, mem_sortStrings, mem_dedupKeepFirst]

theorem regGet?_regSet (r : Registry) (k : String) (v : StilePlugin) (k' : String) :
    regGet? (regSet r k v) k' = if k = k' then some v else regGet? r k' := by
  induction r with
  | nil => simp [regSet, regGet?]
  | cons hd tl ih =>
    obtain ⟨hk, hv⟩ := hd
    by_cases h1 : hk = k
    · subst h1
      simp only [regSet, if_pos rfl]
      by_cases h2 : hk = k'
      · subst h2; simp [regGet?]
      · simp [regGet?, h2]
    · simp only [regSet, if_neg h1]
      by_cases h2 : hk = k'
      · subst h2
        have : ¬ k = hk := fun h => h1 h.symm
        simp [regGet?, this]
      · simp [regGet?, h2, ih]

/-! ### C5: file selection -/

/-- C5 counterexample: a rule matcher anchored at the start of the
relative path.  The claim says matching is performed against the path
relative to the root, so the file should be selected; the source matches
against the absolute path, so it is not. -/
theorem C5_counterexample :
    findFiles ⟨"/repo", [⟨some (fun p => strStartsWith p "src/"), []⟩], []⟩ ["src/a.ts"] = [] ∧
      findFilesSpecRel ⟨"/repo", [⟨some (fun p => strStartsWith p "src/"), []⟩], []⟩
          ["src/a.ts"] = ["/repo/src/a.ts"] := by
  constructor <;> rfl

/-- C5 amended: the selected file list contains exactly the root-joined
paths of tree entries not matched by any exclude glob whose absolute path
matches at least one rule matcher (a rule with no matcher accepting every
file, an exclude match winning regardless of rule order); rule matchers
are applied to the absolute path, not the root-relative one. -/
theorem C5_selected_files (cfg : StileConfig) (tree : List String) (p : String) :
    p ∈ findFiles cfg tree ↔
      ∃ rel, rel ∈ tree ∧ p = joinPath cfg.rootDir rel ∧
        (cfg.exclude.any (fun g => g rel)) = false ∧
        ∃ rule, rule ∈ cfg.rules ∧ fileMatchesRule p rule.test = true := by
  unfold findFiles
  simp only [List.mem_filter, List.mem_map, List.any_eq_true, Bool.not_eq_true']
  constructor
  · rintro ⟨⟨rel, ⟨hrel, hexcl⟩, hjoin⟩, rule, hrulemem, hmatch⟩
    exact ⟨rel, hrel, hjoin.symm, hexcl, rule, hrulemem, hmatch⟩
  · rintro ⟨rel, hrel, hjoin, hexcl, rule, hrulemem, hmatch⟩
    subst hjoin
    exact ⟨⟨rel, ⟨hrel, hexcl⟩, rfl⟩, rule, hrulemem, hmatch⟩

/-! ### C10: preservation of registered plugins -/

/-- C10 counterexample: the name A is registered, the configuration also
references the name B, and resolving B yields a plugin whose name field is
A; ensurePlugins then replaces the registered entry for A, observably
changing its run behaviour. -/
theorem C10_counterexample :
    ((regGet? (ensurePlugins (fun n => if n = "B" then some (loudPlugin "A") else none)
          [("A", quietPlugin "A")] ["B"]).1 "A").map
        (fun p => (p.run probeCtx none).throwsAfter)) = some true ∧
      ((regGet? [("A", quietPlugin "A")] "A").map
        (fun p => (p.run probeCtx none).throwsAfter)) = some false := by
  constructor <;> rfl

theorem ensureStep_get_eq (resolve : String → Option StilePlugin)
    (acc : Registry × List LogEvent) (m name : String)
    (hsome : (regGet? acc.1 name).isSome = true)
    (hres : m ≠ name → ∀ p, resolve m = some p → p.name ≠ name) :
    regGet? (ensureStep resolve acc m).1 name = regGet? acc.1 name := by
  unfold ensureStep
  split
  · rfl
  · rename_i hnot
    by_cases hmn : m = name
    · subst hmn; exact absurd hsome hnot
    · cases hr : resolve m with
      | none => simp
      | some p =>
        simp only
        rw [regGet?_regSet]
        exact if_neg (hres hmn p hr)

theorem ensure_fold_get (resolve : String → Option StilePlugin) (name : String) :
    ∀ (names : List String) (acc : Registry × List LogEvent),
      (regGet? acc.1 name).isSome = true →
      (∀ m ∈ names, m ≠ name → ∀ p, resolve m = some p → p.name ≠ name) →
      regGet? (names.foldl (ensureStep resolve) acc).1 name = regGet? acc.1 name := by
  intro names
  induction names with
  | nil => intro acc h _; rfl
  | cons m ms ih =>
    intro acc h hres
    have hstep := ensureStep_get_eq resolve acc m name h (hres m (by simp))
    rw [List.foldl_cons,
      ih (ensureStep resolve acc m) (by rw [hstep]; exact h)
        (fun m' hm' => hres m' (by simp [hm']))]
    exact hstep

/-- C10 amended: a name already present in the registry is never itself
re-resolved by ensurePlugins, and its entry is unchanged provided no other
referenced name resolves to a plugin whose name field collides with it;
without that proviso the entry can be replaced, as the counterexample
shows. -/
theorem C10_registered_entry (resolve : String → Option StilePlugin) (reg : Registry)
    (names : List String) (name : String)
    (hreg : (regGet? reg name).isSome = true)
    (hres : ∀ m ∈ names, m ≠ name → ∀ p, resolve m = some p → p.name ≠ name) :
    regGet? (ensurePlugins resolve reg names).1 name = regGet? reg name :=
  ensure_fold_get resolve name names (reg, []) hreg hres

/-- C10 witness: a registered name among the referenced names, with an
unresolvable companion name, keeps its registry entry. -/
theorem C10_witness :
    (regGet? [("A", quietPlugin "A")] "A").isSome = true ∧
      regGet? (ensurePlugins (fun _ => none) [("A", quietPlugin "A")] ["A", "C"]).1 "A" =
        regGet? [("A", quietPlugin "A")] "A" :=
  ⟨rfl, C10_registered_entry (fun _ => none) [("A", quietPlugin "A")] ["A", "C"] "A" rfl
    (fun _ _ _ _ hp => nomatch hp)⟩

/-! ### C8: inline-style detection scenario -/

theorem jsxTest_append (a b : String) (h : jsxTest b = true) : jsxTest (a ++ b) = true := by
  unfold jsxTest at h ⊢
  have hdata : (a ++ b).data.reverse = b.data.reverse ++ a.data.reverse := by
    rw [String.data_append, List.reverse_append]
  rw [hdata]
  split at h
  · rename_i heq
    rw [heq]
    rfl
  · rename_i heq
    rw [heq]
    rfl
  · exact absurd h (by simp)

theorem jsxTest_joinPath (root rel : String) (h : jsxTest rel = true) :
    jsxTest (joinPath root rel) = true :=
  jsxTest_append (root ++ "/") rel h

/-- C8: a scan of a file accepted by the matchers, whose source is the
inline-style scenario text, under a rule whose plugin list includes the
no-inline-style plugin, reports exactly one finding of that plugin, of
severity warn, referencing that file. -/
theorem C8_inline_style_scenario (resolve : String → Option StilePlugin)
    (root rel now commit : String) (duration : Nat) (hjsx : jsxTest rel = true) :
    ((scan resolve [("@stile/plugin-no-inline-style", noInlineStylePlugin now)] [rel]
          (fun _ => some "<div style=\x7b\x7bcolor: 'red'\x7d\x7d/>")
          ⟨root, [⟨none, [⟨"@stile/plugin-no-inline-style", none⟩]⟩], []⟩
          now commit duration).1.findings.filter
        (fun f => f.plugin == "@stile/plugin-no-inline-style")).length = 1 ∧
      ∀ f ∈ (scan resolve [("@stile/plugin-no-inline-style", noInlineStylePlugin now)] [rel]
          (fun _ => some "<div style=\x7b\x7bcolor: 'red'\x7d\x7d/>")
          ⟨root, [⟨none, [⟨"@stile/plugin-no-inline-style", none⟩]⟩], []⟩
          now commit duration).1.findings,
        f.severity = Severity.warn ∧ f.file = joinPath root rel := by
  have hacc : jsxTest (joinPath root rel) = true := jsxTest_joinPath root rel hjsx
  have hmatches :
      inlineStyleMatches "<div style=\x7b\x7bcolor: 'red'\x7d\x7d/>" =
        ["style=\x7b\x7bcolor: 'red'\x7d"] := rfl
  have hsf :
      (scanFile [("@stile/plugin-no-inline-style", noInlineStylePlugin now)]
          ⟨root, [⟨none, [⟨"@stile/plugin-no-inline-style", none⟩]⟩], []⟩ now commit
          (joinPath root rel) "<div style=\x7b\x7bcolor: 'red'\x7d\x7d/>").findings =
        [{ plugin := "@stile/plugin-no-inline-style",
           message := "Inline style detected: style=\x7b\x7bcolor: 'red'\x7d…",
           severity := Severity.warn, file := joinPath root rel, project := root,
           timestamp := now, commit := commit }] := by
    simp [scanFile, scanRuleStep, runPluginRef, fileMatchesRule, regGet?,
      pluginAccepts, noInlineStylePlugin, hacc, hmatches, mapFrom_zero,
      fillFinding, jsOr, inlineStyleFinding]
  have hens :
      ensurePlugins resolve [("@stile/plugin-no-inline-style", noInlineStylePlugin now)]
          (pluginNamesOf ⟨root, [⟨none, [⟨"@stile/plugin-no-inline-style", none⟩]⟩], []⟩) =
        ([("@stile/plugin-no-inline-style", noInlineStylePlugin now)], []) := rfl
  have hfiles :
      findFiles ⟨root, [⟨none, [⟨"@stile/plugin-no-inline-style", none⟩]⟩], []⟩ [rel] =
        [joinPath root rel] := rfl
  have hfind :
      (scan resolve [("@stile/plugin-no-inline-style", noInlineStylePlugin now)] [rel]
          (fun _ => some "<div style=\x7b\x7bcolor: 'red'\x7d\x7d/>")
          ⟨root, [⟨none, [⟨"@stile/plugin-no-inline-style", none⟩]⟩], []⟩
          now commit duration).1.findings =
        [{ plugin := "@stile/plugin-no-inline-style",
           message := "Inline style detected: style=\x7b\x7bcolor: 'red'\x7d…",
           severity := Severity.warn, file := joinPath root rel, project := root,
           timestamp := now, commit := commit }] := by
    simp [scan, hens, hfiles, scanFileStep, hsf]
  refine ⟨?_, ?_⟩
  · rw [hfind]; rfl
  · rw [hfind]
    intro f hf
    rcases List.mem_singleton.mp hf with rfl
    exact ⟨rfl, rfl⟩

/-- C8 witness: the scenario at a concrete root, file and clock. -/
theorem C8_witness :
    ((scan (fun _ => none)
          [("@stile/plugin-no-inline-style", noInlineStylePlugin "T0")] ["App.tsx"]
          (fun _ => some "<div style=\x7b\x7bcolor: 'red'\x7d\x7d/>")
          ⟨"/repo", [⟨none, [⟨"@stile/plugin-no-inline-style", none⟩]⟩], []⟩
          "T0" "c0" 5).1.findings.filter
        (fun f => f.plugin == "@stile/plugin-no-inline-style")).length = 1 ∧
      ∀ f ∈ (scan (fun _ => none)
          [("@stile/plugin-no-inline-style", noInlineStylePlugin "T0")] ["App.tsx"]
          (fun _ => some "<div style=\x7b\x7bcolor: 'red'\x7d\x7d/>")
          ⟨"/repo", [⟨none, [⟨"@stile/plugin-no-inline-style", none⟩]⟩], []⟩
          "T0" "c0" 5).1.findings,
        f.severity = Severity.warn ∧ f.file = joinPath "/repo" "App.tsx" :=
  C8_inline_style_scenario (fun _ => none) "/repo" "App.tsx" "T0" "c0" 5 (by decide)

/-! ### Invariant machinery over the scan pipeline -/

theorem jsOr_ne_empty (a b : String) (hb : b ≠ "") : jsOr a b ≠ "" := by
  unfold jsOr
  split
  · exact hb
  · assumption

theorem joinPath_ne_empty (root rel : String) : joinPath root rel ≠ "" := by
  intro h
  have hlen := congrArg String.length h
  have hone : ("/" : String).length = 1 := rfl
  simp [joinPath, String.length_append, hone] at hlen

theorem mem_findFiles_ne_empty (cfg : StileConfig) (tree : List String) (p : String)
    (hp : p ∈ findFiles cfg tree) : p ≠ "" := by
  unfold findFiles at hp
  rcases List.mem_filter.mp hp with ⟨hp2, _⟩
  rcases List.mem_map.mp hp2 with ⟨rel, _, rfl⟩
  exact joinPath_ne_empty _ _

theorem runPluginRef_inv {reg root now commit FileOk P Q}
    (H : StepInv reg root now commit FileOk P Q)
    (filePath source : String) (hfp : FileOk filePath) (s : FileState) (ref : PluginRef)
    (hs1 : ∀ f ∈ s.findings, P f) (hs2 : ∀ c ∈ s.components, Q c) :
    (∀ f ∈ (runPluginRef reg root filePath source now commit s ref).findings, P f) ∧
      ∀ c ∈ (runPluginRef reg root filePath source now commit s ref).components, Q c := by
  cases hk : regGet? reg ref.name with
  | none => simpa only [runPluginRef, hk] using ⟨hs1, hs2⟩
  | some d =>
    rcases H ref.name d hk filePath source s.findings s.components ref.options hfp hs1 hs2
      with ⟨Hthrow, Hok⟩
    by_cases hacc : pluginAccepts d filePath
    · cases hth : (d.run ⟨filePath, root, source, s.findings, s.components, commit⟩
          ref.options).throwsAfter
      · simpa only [runPluginRef, hk, if_pos hacc, hth, Bool.false_eq_true, if_false]
          using Hok hth
      · simpa only [runPluginRef, hk, if_pos hacc, hth, if_true] using Hthrow hth
    · simpa only [runPluginRef, hk, if_neg hacc] using ⟨hs1, hs2⟩

theorem scanFile_inv {reg now commit FileOk P Q} (cfg : StileConfig)
    (H : StepInv reg cfg.rootDir now commit FileOk P Q)
    (filePath source : String) (hfp : FileOk filePath) :
    (∀ f ∈ (scanFile reg cfg now commit filePath source).findings, P f) ∧
      ∀ c ∈ (scanFile reg cfg now commit filePath source).components, Q c := by
  unfold scanFile
  have hinv := foldl_preserve (scanRuleStep reg cfg.rootDir filePath source now commit)
    (fun s => (∀ f ∈ s.findings, P f) ∧ ∀ c ∈ s.components, Q c)
    cfg.rules ⟨[], [], []⟩ (by constructor <;> simp)
    (fun s' rule _ hInv => by
      unfold scanRuleStep
      split
      · exact foldl_preserve (runPluginRef reg cfg.rootDir filePath source now commit)
          (fun s => (∀ f ∈ s.findings, P f) ∧ ∀ c ∈ s.components, Q c)
          rule.plugins s' hInv
          (fun s'' ref _ hInv' =>
            runPluginRef_inv H filePath source hfp s'' ref hInv'.1 hInv'.2)
      · exact hInv)
  exact hinv

theorem scan_inv (P : Finding → Prop) (Q : ComponentInsight → Prop)
    (resolve : String → Option StilePlugin) (reg0 : Registry) (tree : List String)
    (readFile : String → Option String) (cfg : StileConfig) (now commit : String)
    (duration : Nat)
    (H : StepInv (ensurePlugins resolve reg0 (pluginNamesOf cfg)).1 cfg.rootDir now commit
      (fun fp => fp ∈ findFiles cfg tree) P Q) :
    (∀ f ∈ (scan resolve reg0 tree readFile cfg now commit duration).1.findings, P f) ∧
      ∀ c ∈ (scan resolve reg0 tree readFile cfg now commit duration).1.components, Q c := by
  have hinv := foldl_preserve
    (scanFileStep (ensurePlugins resolve reg0 (pluginNamesOf cfg)).1 readFile cfg now commit)
    (fun st => (∀ f ∈ st.findings, P f) ∧ ∀ c ∈ st.components, Q c)
    (findFiles cfg tree) ⟨[], [], 0, (ensurePlugins resolve reg0 (pluginNamesOf cfg)).2⟩
    (by constructor <;> simp)
    (fun st file hfile hInv => by
      unfold scanFileStep
      cases hread : readFile file with
      | none => simpa using hInv
      | some source =>
        have hsf := scanFile_inv cfg H file source hfile
        constructor
        · intro f hf
          rcases List.mem_append.mp hf with hf | hf
          · exact hInv.1 f hf
          · exact hsf.1 f hf
        · intro c hc
          rcases List.mem_append.mp hc with hc | hc
          · exact hInv.2 c hc
          · exact hsf.2 c hc)
  exact hinv

theorem ensure_values (resolve : String → Option StilePlugin) (reg0 : Registry)
    (Pp : StilePlugin → Prop)
    (h0 : ∀ k p, regGet? reg0 k = some p → Pp p)
    (hres : ∀ m p, resolve m = some p → Pp p) :
    ∀ (names : List String) k p,
      regGet? (ensurePlugins resolve reg0 names).1 k = some p → Pp p := by
  suffices h : ∀ (names : List String) (acc : Registry × List LogEvent),
      (∀ k p, regGet? acc.1 k = some p → Pp p) →
      ∀ k p, regGet? (names.foldl (ensureStep resolve) acc).1 k = some p → Pp p by
    exact fun names => h names (reg0, []) h0
  intro names
  induction names with
  | nil => intro acc hacc; exact hacc
  | cons m ms ih =>
    intro acc hacc
    rw [List.foldl_cons]
    apply ih
    intro k p hk
    unfold ensureStep at hk
    split at hk
    · exact hacc k p hk
    · cases hr : resolve m with
      | none => rw [hr] at hk; exact hacc k p hk
      | some q =>
        rw [hr] at hk
        simp only at hk
        rw [regGet?_regSet] at hk
        split at hk
        · exact (Option.some.inj hk) ▸ hres m q hr
        · exact hacc k p hk

theorem ensure_log_mono (resolve : String → Option StilePlugin) (e : LogEvent) :
    ∀ (names : List String) (acc : Registry × List LogEvent), e ∈ acc.2 →
      e ∈ (names.foldl (ensureStep resolve) acc).2 := by
  intro names
  induction names with
  | nil => intro acc h; exact h
  | cons m ms ih =>
    intro acc h
    rw [List.foldl_cons]
    apply ih
    unfold ensureStep
    split
    · exact h
    · cases hr : resolve m with
      | none => exact List.mem_append_left _ h
      | some q => exact h

theorem ensure_event (resolve : String → Option StilePlugin) (name : String)
    (hresN : resolve name = none)
    (havoid : ∀ m p, resolve m = some p → p.name ≠ name) :
    ∀ (names : List String) (acc : Registry × List LogEvent),
      regGet? acc.1 name = none → name ∈ names →
      LogEvent.pluginLoadFailed name ∈ (names.foldl (ensureStep resolve) acc).2 := by
  intro names
  induction names with
  | nil => intro acc _ h; simp at h
  | cons m ms ih =>
    intro acc hnone hmem
    rw [List.foldl_cons]
    by_cases hm : m = name
    · subst hm
      have hstep : (ensureStep resolve acc m).2 = acc.2 ++ [LogEvent.pluginLoadFailed m] := by
        unfold ensureStep
        rw [hnone]
        simp [hresN]
      apply ensure_log_mono
      rw [hstep]
      exact List.mem_append_right _ (by simp)
    · have hname : name ∈ ms := by
        rcases List.mem_cons.mp hmem with h | h
        · exact absurd h.symm hm
        · exact h
      apply ih (ensureStep resolve acc m) ?_ hname
      unfold ensureStep
      split
      · exact hnone
      · cases hr : resolve m with
        | none => exact hnone
        | some q =>
          simp only
          rw [regGet?_regSet]
          rw [if_neg (havoid m q hr)]
          exact hnone

theorem scan_log_from_ensure (resolve : String → Option StilePlugin) (reg0 : Registry)
    (tree : List String) (readFile : String → Option String) (cfg : StileConfig)
    (now commit : String) (duration : Nat) (e : LogEvent)
    (he : e ∈ (ensurePlugins resolve reg0 (pluginNamesOf cfg)).2) :
    e ∈ (scan resolve reg0 tree readFile cfg now commit duration).2 := by
  have h := foldl_preserve
    (scanFileStep (ensurePlugins resolve reg0 (pluginNamesOf cfg)).1 readFile cfg now commit)
    (fun st => e ∈ st.log) (findFiles cfg tree)
    ⟨[], [], 0, (ensurePlugins resolve reg0 (pluginNamesOf cfg)).2⟩ he
    (fun st file _ hmem => by
      unfold scanFileStep
      cases readFile file with
      | none => exact List.mem_append_left _ hmem
      | some source => exact List.mem_append_left _ hmem)
  exact h

/-! ### C3: field population of report entries -/

/-- C3 counterexample: a plugin that appends a finding with every
defaultable field omitted and a component record with an empty component
name, then throws.  The catch skips the backfill, so the report keeps a
finding with empty plugin, project, file and timestamp fields, and the
component field of a usage record is never backfilled at all. -/
theorem C3_counterexample :
    ((scan (fun _ => none) [("omit-then-throw", omittingThrowingPlugin)] ["a.tsx"]
          (fun _ => some "") ⟨"/r", [⟨none, [⟨"omit-then-throw", none⟩]⟩], []⟩
          "T0" "c0" 0).1.findings.any
        (fun f => f.plugin == "" && f.project == "" && f.file == "" && f.timestamp == ""))
        = true ∧
      ((scan (fun _ => none) [("omit-then-throw", omittingThrowingPlugin)] ["a.tsx"]
          (fun _ => some "") ⟨"/r", [⟨none, [⟨"omit-then-throw", none⟩]⟩], []⟩
          "T0" "c0" 0).1.components.any (fun c => c.component == "")) = true := by
  constructor <;> rfl

/-- C3 amended: when every plugin reachable through the registry only
appends to the context, never throws, and carries a non-empty name, and
the root directory, clock instant and resolved commit are non-empty, every
finding in the report has non-empty plugin, project, file, timestamp and
commit fields, and every usage record has non-empty project, file and
commit fields.  A plugin that throws after appending leaves its entries
without backfill, and the component name of a usage record is never
backfilled, so neither is guaranteed in general. -/
theorem C3_populated_fields (resolve : String → Option StilePlugin) (reg0 : Registry)
    (tree : List String) (readFile : String → Option String) (cfg : StileConfig)
    (now commit : String) (duration : Nat)
    (hroot : cfg.rootDir ≠ "") (hnow : now ≠ "") (hcommit : commit ≠ "")
    (hreg : ∀ k p, regGet? (ensurePlugins resolve reg0 (pluginNamesOf cfg)).1 k = some p →
      AppendOnly p ∧ NeverThrows p ∧ p.name ≠ "") :
    (∀ f ∈ (scan resolve reg0 tree readFile cfg now commit duration).1.findings,
        f.plugin ≠ "" ∧ f.project ≠ "" ∧ f.file ≠ "" ∧ f.timestamp ≠ "" ∧ f.commit ≠ "") ∧
      ∀ c ∈ (scan resolve reg0 tree readFile cfg now commit duration).1.components,
        c.project ≠ "" ∧ c.file ≠ "" ∧ c.commit ≠ "" := by
  apply scan_inv
  intro k p hk filePath source fs cs opts hfp hfs hcs
  obtain ⟨happ, hnt, hname⟩ := hreg k p hk
  obtain ⟨tf, tc, htf, htc⟩ := happ ⟨filePath, cfg.rootDir, source, fs, cs, commit⟩ opts
  have hfile : filePath ≠ "" := mem_findFiles_ne_empty cfg tree filePath hfp
  constructor
  · intro hth
    rw [hnt ⟨filePath, cfg.rootDir, source, fs, cs, commit⟩ opts] at hth
    simp at hth
  · intro _
    constructor
    · intro f hf
      rw [htf, mapFrom_append] at hf
      rcases List.mem_append.mp hf with hf | hf
      · exact hfs f hf
      · rcases List.mem_map.mp hf with ⟨f₀, _, rfl⟩
        exact ⟨jsOr_ne_empty _ _ hname, jsOr_ne_empty _ _ hroot, jsOr_ne_empty _ _ hfile,
          jsOr_ne_empty _ _ hnow, jsOr_ne_empty _ _ hcommit⟩
    · intro c hc
      rw [htc, mapFrom_append] at hc
      rcases List.mem_append.mp hc with hc | hc
      · exact hcs c hc
      · rcases List.mem_map.mp hc with ⟨c₀, _, rfl⟩
        exact ⟨jsOr_ne_empty _ _ hroot, jsOr_ne_empty _ _ hfile, jsOr_ne_empty _ _ hcommit⟩

/-- C3 witness: a concrete scan with a quiet registered plugin. -/
theorem C3_witness :
    (∀ f ∈ (scan (fun _ => none) [("A", quietPlugin "A")] ["a.ts"] (fun _ => some "")
        ⟨"/r", [⟨none, [⟨"A", none⟩]⟩], []⟩ "T0" "c0" 0).1.findings,
        f.plugin ≠ "" ∧ f.project ≠ "" ∧ f.file ≠ "" ∧ f.timestamp ≠ "" ∧ f.commit ≠ "") ∧
      ∀ c ∈ (scan (fun _ => none) [("A", quietPlugin "A")] ["a.ts"] (fun _ => some "")
        ⟨"/r", [⟨none, [⟨"A", none⟩]⟩], []⟩ "T0" "c0" 0).1.components,
        c.project ≠ "" ∧ c.file ≠ "" ∧ c.commit ≠ "" := by
  refine C3_populated_fields (fun _ => none) [("A", quietPlugin "A")] ["a.ts"]
    (fun _ => some "") ⟨"/r", [⟨none, [⟨"A", none⟩]⟩], []⟩ "T0" "c0" 0
    (by decide) (by decide) (by decide) ?_
  have hens : (ensurePlugins (fun _ => none) [("A", quietPlugin "A")]
      (pluginNamesOf ⟨"/r", [⟨none, [⟨"A", none⟩]⟩], []⟩)).1 = [("A", quietPlugin "A")] := rfl
  rw [hens]
  intro k p hk
  unfold regGet? at hk
  split at hk
  · cases Option.some.inj hk
    refine ⟨fun ctx opts => ⟨[], [], by simp [quietPlugin], by simp [quietPlugin]⟩,
      fun ctx opts => rfl, by decide⟩
  · cases hk

/-! ### C7: unresolved plugin names -/

/-- C7: a scan whose configuration references a name that is neither
registered nor resolvable completes with a logged load warning and no
finding attributed to that name, provided the registered plugins append
with their own attribution and no registered or resolvable plugin carries
that name. -/
theorem C7_unresolved_plugin (resolve : String → Option StilePlugin) (reg0 : Registry)
    (tree : List String) (readFile : String → Option String) (cfg : StileConfig)
    (now commit : String) (duration : Nat) (N : String)
    (hN : N ≠ "")
    (hmem : N ∈ pluginNamesOf cfg)
    (hresolve : resolve N = none)
    (hreg0 : regGet? reg0 N = none)
    (h0 : ∀ k p, regGet? reg0 k = some p → p.name ≠ N)
    (hres : ∀ m p, resolve m = some p → p.name ≠ N)
    (hbehave : ∀ k p, regGet? (ensurePlugins resolve reg0 (pluginNamesOf cfg)).1 k = some p →
      AppendOnly p ∧ OwnAttribution p) :
    ((scan resolve reg0 tree readFile cfg now commit duration).1.findings.filter
        (fun f => f.plugin == N)).length = 0 ∧
      LogEvent.pluginLoadFailed N ∈
        (scan resolve reg0 tree readFile cfg now commit duration).2 := by
  constructor
  · have hP := (scan_inv (fun f => ¬ f.plugin = N) (fun _ => True) resolve reg0 tree readFile
      cfg now commit duration ?_).1
    · have hnil : (scan resolve reg0 tree readFile cfg now commit duration).1.findings.filter
          (fun f => f.plugin == N) = [] := by
        rw [List.filter_eq_nil_iff]
        intro f hf
        simpa using hP f hf
      rw [hnil]
      rfl
    · intro k p hk filePath source fs cs opts _ hfs _
      obtain ⟨happ, hattr⟩ := hbehave k p hk
      have hpname : p.name ≠ N :=
        ensure_values resolve reg0 (fun q => q.name ≠ N) h0 hres (pluginNamesOf cfg) k p hk
      obtain ⟨tf, tc, htf, htc⟩ := happ ⟨filePath, cfg.rootDir, source, fs, cs, commit⟩ opts
      have htfP : ∀ f ∈ tf, f.plugin = "" ∨ f.plugin = p.name :=
        hattr ⟨filePath, cfg.rootDir, source, fs, cs, commit⟩ opts tf htf
      constructor
      · intro _
        refine ⟨?_, fun c _ => trivial⟩
        intro f hf
        rw [htf] at hf
        rcases List.mem_append.mp hf with hf | hf
        · exact hfs f hf
        · rcases htfP f hf with h | h
          · rw [h]; exact fun hEq => hN hEq.symm
          · rw [h]; exact hpname
      · intro _
        refine ⟨?_, fun c _ => trivial⟩
        intro f hf
        rw [htf, mapFrom_append] at hf
        rcases List.mem_append.mp hf with hf | hf
        · exact hfs f hf
        · rcases List.mem_map.mp hf with ⟨f₀, hf₀, rfl⟩
          show ¬ jsOr f₀.plugin p.name = N
          unfold jsOr
          split
          · exact hpname
          · rename_i hne
            rcases htfP f₀ hf₀ with h | h
            · exact absurd h hne
            · rw [h]; exact hpname
  · apply scan_log_from_ensure
    unfold ensurePlugins
    exact ensure_event resolve N hresolve hres (pluginNamesOf cfg) (reg0, []) hreg0 hmem

/-- C7 witness: a configuration referencing the unresolvable name ghost
with an empty registry. -/
theorem C7_witness :
    ((scan (fun _ => none) [] ["a.ts"] (fun _ => some "")
          ⟨"/r", [⟨none, [⟨"ghost", none⟩]⟩], []⟩ "T0" "c0" 0).1.findings.filter
        (fun f => f.plugin == "ghost")).length = 0 ∧
      LogEvent.pluginLoadFailed "ghost" ∈
        (scan (fun _ => none) [] ["a.ts"] (fun _ => some "")
          ⟨"/r", [⟨none, [⟨"ghost", none⟩]⟩], []⟩ "T0" "c0" 0).2 := by
  refine C7_unresolved_plugin (fun _ => none) [] ["a.ts"] (fun _ => some "")
    ⟨"/r", [⟨none, [⟨"ghost", none⟩]⟩], []⟩ "T0" "c0" 0 "ghost"
    (by decide) (by decide) rfl rfl ?_ ?_ ?_
  · intro k p hk; cases hk
  · intro m p hp; cases hp
  · intro k p hk
    have hens : (ensurePlugins (fun _ => none) []
        (pluginNamesOf ⟨"/r", [⟨none, [⟨"ghost", none⟩]⟩], []⟩)).1 = [] := rfl
    rw [hens] at hk
    cases hk

/-! ### C4: resilience to plugin failures -/

theorem scanfold_filesScanned (reg : Registry) (readFile : String → Option String)
    (cfg : StileConfig) (now commit : String) :
    ∀ (files : List String) (acc : ScanState),
      (files.foldl (scanFileStep reg readFile cfg now commit) acc).filesScanned =
        acc.filesScanned + (files.filter (fun f => (readFile f).isSome)).length := by
  intro files
  induction files with
  | nil => intro acc; simp
  | cons f fs ih =>
    intro acc
    rw [List.foldl_cons]
    cases hrf : readFile f with
    | none =>
      rw [ih]
      simp [scanFileStep, hrf, List.filter_cons]
    | some src =>
      rw [ih]
      simp [scanFileStep, hrf, List.filter_cons]
      omega

theorem runPluginRef_agree (reg : Registry) (root fp src now commit : String)
    (s1 s2 : FileState) (r : PluginRef)
    (h1 : s1.findings = s2.findings) (h2 : s1.components = s2.components) :
    (runPluginRef reg root fp src now commit s1 r).findings =
        (runPluginRef reg root fp src now commit s2 r).findings ∧
      (runPluginRef reg root fp src now commit s1 r).components =
        (runPluginRef reg root fp src now commit s2 r).components := by
  unfold runPluginRef
  cases hk : regGet? reg r.name with
  | none => simp only [hk]; exact ⟨h1, h2⟩
  | some d =>
    by_cases hacc : pluginAccepts d fp
    · simp only [hk, if_pos hacc]
      rw [h1, h2]
      cases hth : (d.run ⟨fp, root, src, s2.findings, s2.components, commit⟩
          r.options).throwsAfter <;> simp [hth]
    · simp only [hk, if_neg hacc]; exact ⟨h1, h2⟩

theorem pluginfold_agree (reg : Registry) (root fp src now commit : String) :
    ∀ (refs : List PluginRef) (s1 s2 : FileState),
      s1.findings = s2.findings → s1.components = s2.components →
      ((refs.foldl (runPluginRef reg root fp src now commit) s1).findings =
          (refs.foldl (runPluginRef reg root fp src now commit) s2).findings ∧
        (refs.foldl (runPluginRef reg root fp src now commit) s1).components =
          (refs.foldl (runPluginRef reg root fp src now commit) s2).components) := by
  intro refs
  induction refs with
  | nil => intro s1 s2 h1 h2; exact ⟨h1, h2⟩
  | cons r rs ih =>
    intro s1 s2 h1 h2
    rw [List.foldl_cons, List.foldl_cons]
    obtain ⟨g1, g2⟩ := runPluginRef_agree reg root fp src now commit s1 s2 r h1 h2
    exact ih _ _ g1 g2

theorem ensure_resolve_none (reg0 : Registry) (names : List String) :
    (ensurePlugins (fun _ => none) reg0 names).1 = reg0 := by
  suffices h : ∀ (ns : List String) (acc : Registry × List LogEvent),
      (ns.foldl (ensureStep (fun _ => none)) acc).1 = acc.1 by
    exact h names (reg0, [])
  intro ns
  induction ns with
  | nil => intro acc; rfl
  | cons m ms ih =>
    intro acc
    rw [List.foldl_cons, ih]
    unfold ensureStep
    split
    · rfl
    · rfl

theorem scanFile_dropThrowingNoop (pBad : StilePlugin) (nb : String) (optsB : Option Options)
    (reg0 : Registry) (root : String) (tst : Option (String → Bool))
    (excl : List (String → Bool)) (refs : List PluginRef) (now commit fp src : String)
    (hbad : ThrowingNoop pBad) (htest : pBad.test = none) (hreg : regGet? reg0 nb = some pBad) :
    ((scanFile reg0 ⟨root, [⟨tst, ⟨nb, optsB⟩ :: refs⟩], excl⟩ now commit fp src).findings =
        (scanFile reg0 ⟨root, [⟨tst, refs⟩], excl⟩ now commit fp src).findings ∧
      (scanFile reg0 ⟨root, [⟨tst, ⟨nb, optsB⟩ :: refs⟩], excl⟩ now commit fp src).components =
        (scanFile reg0 ⟨root, [⟨tst, refs⟩], excl⟩ now commit fp src).components) := by
  unfold scanFile
  simp only [List.foldl_cons, List.foldl_nil]
  unfold scanRuleStep
  by_cases hm : fileMatchesRule fp tst = true
  · rw [if_pos hm, if_pos hm]
    rw [List.foldl_cons]
    have hacc : pluginAccepts pBad fp = true := by
      unfold pluginAccepts
      rw [htest]
    have hstep : runPluginRef reg0 root fp src now commit ⟨[], [], []⟩ ⟨nb, optsB⟩ =
        ⟨[], [], [] ++ [LogEvent.pluginRunFailed pBad.name fp]⟩ := by
      unfold runPluginRef
      simp only [hreg, if_pos hacc]
      rw [hbad ⟨fp, root, src, [], [], commit⟩ optsB]
      rfl
    rw [hstep]
    exact pluginfold_agree reg0 root fp src now commit refs
      ⟨[], [], [] ++ [LogEvent.pluginRunFailed pBad.name fp]⟩ ⟨[], [], []⟩ rfl rfl
  · rw [if_neg hm, if_neg hm]
    exact ⟨rfl, rfl⟩

theorem scanfold_agree (regA regB : Registry) (cfgA cfgB : StileConfig)
    (readFile : String → Option String) (now commit : String)
    (hsf : ∀ fp src,
      ((scanFile regA cfgA now commit fp src).findings =
          (scanFile regB cfgB now commit fp src).findings ∧
        (scanFile regA cfgA now commit fp src).components =
          (scanFile regB cfgB now commit fp src).components)) :
    ∀ (files : List String) (acc1 acc2 : ScanState),
      acc1.findings = acc2.findings → acc1.components = acc2.components →
      acc1.filesScanned = acc2.filesScanned →
      ((files.foldl (scanFileStep regA readFile cfgA now commit) acc1).findings =
          (files.foldl (scanFileStep regB readFile cfgB now commit) acc2).findings ∧
        (files.foldl (scanFileStep regA readFile cfgA now commit) acc1).components =
          (files.foldl (scanFileStep regB readFile cfgB now commit) acc2).components ∧
        (files.foldl (scanFileStep regA readFile cfgA now commit) acc1).filesScanned =
          (files.foldl (scanFileStep regB readFile cfgB now commit) acc2).filesScanned) := by
  intro files
  induction files with
  | nil => intro a b h1 h2 h3; exact ⟨h1, h2, h3⟩
  | cons f fs ih =>
    intro a b h1 h2 h3
    rw [List.foldl_cons, List.foldl_cons]
    cases hrf : readFile f with
    | none =>
      apply ih <;> simp [scanFileStep, hrf, h1, h2, h3]
    | some src =>
      apply ih <;> simp [scanFileStep, hrf, h1, h2, h3, (hsf f src).1, (hsf f src).2]

/-- C4: plugin failures are contained.  First, filesScanned counts exactly
the selected files whose read succeeded, independent of any plugin
behaviour.  Second, an invocation that throws is caught: the state keeps
the lists the plugin had already mutated (no rollback) and gains exactly
one logged warning naming the plugin and the file, and the fold simply
continues with the remaining references.  Third, adding an
always-throwing no-op plugin in front of a rule changes none of the
findings, components or filesScanned of the report. -/
theorem C4_plugin_failure_resilience :
    (∀ resolve reg0 tree readFile cfg now commit duration,
      (scan resolve reg0 tree readFile cfg now commit duration).1.summary.filesScanned =
        ((findFiles cfg tree).filter (fun f => (readFile f).isSome)).length) ∧
    (∀ (reg : Registry) (root filePath source now commit : String) (s : FileState)
        (ref : PluginRef) (d : StilePlugin),
      regGet? reg ref.name = some d →
      pluginAccepts d filePath = true →
      (d.run ⟨filePath, root, source, s.findings, s.components, commit⟩
          ref.options).throwsAfter = true →
      runPluginRef reg root filePath source now commit s ref =
        ⟨(d.run ⟨filePath, root, source, s.findings, s.components, commit⟩
            ref.options).findings,
          (d.run ⟨filePath, root, source, s.findings, s.components, commit⟩
            ref.options).components,
          s.log ++ [LogEvent.pluginRunFailed d.name filePath]⟩) ∧
    (∀ (pBad : StilePlugin) (nb : String) (optsB : Option Options) (reg0 : Registry)
        (tree : List String) (readFile : String → Option String) (root : String)
        (tst : Option (String → Bool)) (excl : List (String → Bool))
        (refs : List PluginRef) (now commit : String) (duration : Nat),
      ThrowingNoop pBad → pBad.test = none → regGet? reg0 nb = some pBad →
      ((scan (fun _ => none) reg0 tree readFile ⟨root, [⟨tst, ⟨nb, optsB⟩ :: refs⟩], excl⟩
            now commit duration).1.findings =
          (scan (fun _ => none) reg0 tree readFile ⟨root, [⟨tst, refs⟩], excl⟩
            now commit duration).1.findings ∧
        (scan (fun _ => none) reg0 tree readFile ⟨root, [⟨tst, ⟨nb, optsB⟩ :: refs⟩], excl⟩
            now commit duration).1.components =
          (scan (fun _ => none) reg0 tree readFile ⟨root, [⟨tst, refs⟩], excl⟩
            now commit duration).1.components ∧
        (scan (fun _ => none) reg0 tree readFile ⟨root, [⟨tst, ⟨nb, optsB⟩ :: refs⟩], excl⟩
            now commit duration).1.summary.filesScanned =
          (scan (fun _ => none) reg0 tree readFile ⟨root, [⟨tst, refs⟩], excl⟩
            now commit duration).1.summary.filesScanned)) := by
  refine ⟨?_, ?_, ?_⟩
  · intro resolve reg0 tree readFile cfg now commit duration
    have h := scanfold_filesScanned (ensurePlugins resolve reg0 (pluginNamesOf cfg)).1
      readFile cfg now commit (findFiles cfg tree)
      ⟨[], [], 0, (ensurePlugins resolve reg0 (pluginNamesOf cfg)).2⟩
    simpa using h
  · intro reg root filePath source now commit s ref d hget hacc hth
    unfold runPluginRef
    simp only [hget, if_pos hacc, hth, if_true]
  · intro pBad nb optsB reg0 tree readFile root tst excl refs now commit duration
      hbad htest hreg
    have hreg1 : (ensurePlugins (fun _ => none) reg0
        (pluginNamesOf ⟨root, [⟨tst, ⟨nb, optsB⟩ :: refs⟩], excl⟩)).1 = reg0 :=
      ensure_resolve_none _ _
    have hreg2 : (ensurePlugins (fun _ => none) reg0
        (pluginNamesOf ⟨root, [⟨tst, refs⟩], excl⟩)).1 = reg0 :=
      ensure_resolve_none _ _
    have hfiles : findFiles ⟨root, [⟨tst, ⟨nb, optsB⟩ :: refs⟩], excl⟩ tree =
        findFiles ⟨root, [⟨tst, refs⟩], excl⟩ tree := rfl
    have hagree := scanfold_agree reg0 reg0
      ⟨root, [⟨tst, ⟨nb, optsB⟩ :: refs⟩], excl⟩ ⟨root, [⟨tst, refs⟩], excl⟩
      readFile now commit
      (fun fp src => scanFile_dropThrowingNoop pBad nb optsB reg0 root tst excl refs
        now commit fp src hbad htest hreg)
      (findFiles ⟨root, [⟨tst, refs⟩], excl⟩ tree)
      ⟨[], [], 0, (ensurePlugins (fun _ => none) reg0
        (pluginNamesOf ⟨root, [⟨tst, ⟨nb, optsB⟩ :: refs⟩], excl⟩)).2⟩
      ⟨[], [], 0, (ensurePlugins (fun _ => none) reg0
        (pluginNamesOf ⟨root, [⟨tst, refs⟩], excl⟩)).2⟩
      rfl rfl rfl
    simp only [scan, hreg1, hreg2, hfiles]
    exact hagree

/-! ### C6: the component merge law -/

theorem insightMatches_eq_true (c s fl : String) (e : ComponentInsight) :
    insightMatches c s fl e = true ↔ (e.component = c ∧ e.source = s ∧ e.file = fl) := by
  simp [insightMatches, Bool.and_eq_true, beq_iff_eq, and_assoc]

theorem sightKey_eq_true (c s : String) (t : Sighting) :
    ((t.component == c && t.source == s) = true) ↔ (t.component = c ∧ t.source = s) := by
  simp [Bool.and_eq_true, beq_iff_eq]

theorem updateFirst_mem {α : Type} (p : α → Bool) (g : α → α) :
    ∀ (l : List α) (e : α), e ∈ updateFirst p g l →
      e ∈ l ∨ ∃ x, x ∈ l ∧ p x = true ∧ e = g x := by
  intro l
  induction l with
  | nil => intro e he; simp [updateFirst] at he
  | cons x xs ih =>
    intro e he
    unfold updateFirst at he
    by_cases hx : p x = true
    · rw [if_pos hx] at he
      rcases List.mem_cons.mp he with h | h
      · exact Or.inr ⟨x, List.mem_cons_self _ _, hx, h⟩
      · exact Or.inl (List.mem_cons_of_mem _ h)
    · rw [if_neg hx] at he
      rcases List.mem_cons.mp he with h | h
      · exact Or.inl (h ▸ List.mem_cons_self _ _)
      · rcases ih e h with h' | ⟨y, hy, hpy, hey⟩
        · exact Or.inl (List.mem_cons_of_mem _ h')
        · exact Or.inr ⟨y, List.mem_cons_of_mem _ hy, hpy, hey⟩

theorem filter_updateFirst {α : Type} (p q : α → Bool) (g : α → α)
    (hq : ∀ x, q (g x) = q x) :
    ∀ l : List α, ((updateFirst p g l).filter q).length = (l.filter q).length := by
  intro l
  induction l with
  | nil => rfl
  | cons x xs ih =>
    unfold updateFirst
    by_cases hx : p x = true
    · rw [if_pos hx, List.filter_cons, List.filter_cons, hq x]
      split <;> simp
    · rw [if_neg hx, List.filter_cons, List.filter_cons]
      split <;> simp [ih]

theorem updateFirst_unique_match {α : Type} (p : α → Bool) (g : α → α)
    (Φ Ψ : α → Prop) (himp : ∀ x, p x = true → Φ x → Ψ (g x)) :
    ∀ l : List α, (l.filter p).length ≤ 1 → (∀ e ∈ l, p e = true → Φ e) →
      ∀ e ∈ updateFirst p g l, p e = true → Ψ e := by
  intro l
  induction l with
  | nil => intro _ _ e he; simp [updateFirst] at he
  | cons x xs ih =>
    intro hcount hΦ e he hpe
    unfold updateFirst at he
    by_cases hx : p x = true
    · rw [if_pos hx] at he
      have hxs : (xs.filter p).length = 0 := by
        rw [List.filter_cons, if_pos hx] at hcount
        simp only [List.length_cons] at hcount
        omega
      rcases List.mem_cons.mp he with h | h
      · exact h ▸ himp x hx (hΦ x (List.mem_cons_self _ _) hx)
      · exact absurd hpe
          (List.filter_eq_nil_iff.mp (List.length_eq_zero.mp hxs) e h)
    · rw [if_neg hx] at he
      rcases List.mem_cons.mp he with h | h
      · exact absurd (h ▸ hpe) hx
      · refine ih ?_ (fun e' he' hp' => hΦ e' (List.mem_cons_of_mem _ he') hp') e h hpe
        rw [List.filter_cons, if_neg hx] at hcount
        exact hcount

theorem updateFirst_other {α : Type} (p q : α → Bool) (g : α → α)
    (hdisj : ∀ x, p x = true → q x = false) (hq : ∀ x, q (g x) = q x)
    (Φ : α → Prop) :
    ∀ l : List α, (∀ e ∈ l, q e = true → Φ e) →
      ∀ e ∈ updateFirst p g l, q e = true → Φ e := by
  intro l
  induction l with
  | nil => intro _ e he; simp [updateFirst] at he
  | cons x xs ih =>
    intro hΦ e he hqe
    unfold updateFirst at he
    by_cases hx : p x = true
    · rw [if_pos hx] at he
      rcases List.mem_cons.mp he with h | h
      · exfalso
        rw [h, hq x, hdisj x hx] at hqe
        exact Bool.false_ne_true hqe
      · exact hΦ e (List.mem_cons_of_mem _ h) hqe
    · rw [if_neg hx] at he
      rcases List.mem_cons.mp he with h | h
      · exact hΦ e (h ▸ List.mem_cons_self _ _) hqe
      · exact ih (fun e' he' hq' => hΦ e' (List.mem_cons_of_mem _ he') hq') e h hqe

theorem mergeSighting_pos (project file commit : String) (R : List ComponentInsight)
    (t : Sighting) (h : R.any (insightMatches t.component t.source file) = true) :
    mergeSighting project file commit R t =
      updateFirst (insightMatches t.component t.source file)
        (fun e => { e with occurrences := e.occurrences + 1,
                           props := propsUnion e.props t.props }) R := by
  unfold mergeSighting
  rw [if_pos h]

theorem mergeSighting_neg (project file commit : String) (R : List ComponentInsight)
    (t : Sighting) (h : R.any (insightMatches t.component t.source file) = false) :
    mergeSighting project file commit R t =
      R ++ [⟨project, file, t.component, t.source, categorize t.source, 1,
        sortStrings (dedupKeepFirst t.props), commit, "react"⟩] := by
  unfold mergeSighting
  rw [h]
  simp only [Bool.false_eq_true, if_false]

/-- C4 witness: a concrete two-file scan in which a registered
always-throwing plugin precedes a quiet plugin; the three parts of the
resilience theorem instantiated. -/
theorem C4_witness :
    ((scan (fun _ => none) [("bad", loudPlugin "bad")] ["a.ts", "b.ts"]
        (fun f => if f = "/r/a.ts" then some "" else none)
        ⟨"/r", [⟨none, [⟨"bad", none⟩]⟩], []⟩ "T0" "c0" 0).1.summary.filesScanned =
      ((findFiles ⟨"/r", [⟨none, [⟨"bad", none⟩]⟩], []⟩ ["a.ts", "b.ts"]).filter
        (fun f => ((if f = "/r/a.ts" then some "" else none) : Option String).isSome)).length) ∧
    (runPluginRef [("bad", loudPlugin "bad")] "/r" "/r/a.ts" "" "T0" "c0" ⟨[], [], []⟩
        ⟨"bad", none⟩ =
      ⟨((loudPlugin "bad").run ⟨"/r/a.ts", "/r", "", [], [], "c0"⟩ none).findings,
        ((loudPlugin "bad").run ⟨"/r/a.ts", "/r", "", [], [], "c0"⟩ none).components,
        [] ++ [LogEvent.pluginRunFailed "bad" "/r/a.ts"]⟩) ∧
    ((scan (fun _ => none) [("bad", loudPlugin "bad")] ["a.ts"] (fun _ => some "")
          ⟨"/r", [⟨none, [⟨"bad", none⟩]⟩], []⟩ "T0" "c0" 0).1.findings =
        (scan (fun _ => none) [("bad", loudPlugin "bad")] ["a.ts"] (fun _ => some "")
          ⟨"/r", [⟨none, []⟩], []⟩ "T0" "c0" 0).1.findings) := by
  refine ⟨C4_plugin_failure_resilience.1 (fun _ => none) [("bad", loudPlugin "bad")]
      ["a.ts", "b.ts"] (fun f => if f = "/r/a.ts" then some "" else none)
      ⟨"/r", [⟨none, [⟨"bad", none⟩]⟩], []⟩ "T0" "c0" 0,
    C4_plugin_failure_resilience.2.1 [("bad", loudPlugin "bad")] "/r" "/r/a.ts" "" "T0" "c0"
      ⟨[], [], []⟩ ⟨"bad", none⟩ (loudPlugin "bad") rfl rfl rfl,
    (C4_plugin_failure_resilience.2.2 (loudPlugin "bad") "bad" none
      [("bad", loudPlugin "bad")] ["a.ts"] (fun _ => some "") "/r" none [] [] "T0" "c0" 0
      (fun ctx opts => rfl) rfl rfl).1⟩

theorem mergeFold_invariant (project file commit : String) (L : List Sighting) :
    (∀ e ∈ L.foldl (mergeSighting project file commit) [],
        e.project = project ∧ e.file = file ∧ e.commit = commit ∧ e.framework = "react" ∧
          e.category = categorize e.source) ∧
      ∀ c s : String,
        (((L.foldl (mergeSighting project file commit) []).filter
              (insightMatches c s file)).length =
            if (L.filter (fun t => t.component == c && t.source == s)).length = 0 then 0
            else 1) ∧
          ∀ e ∈ L.foldl (mergeSighting project file commit) [],
            insightMatches c s file e = true →
            e.occurrences = (L.filter (fun t => t.component == c && t.source == s)).length ∧
              ∀ x, x ∈ e.props ↔
                ∃ t ∈ L, (t.component == c && t.source == s) = true ∧ x ∈ t.props := by
  induction L using List.reverseRecOn with
  | nil =>
    refine ⟨by simp, fun c s => ⟨by simp, by simp⟩⟩
  | append_singleton xs t ih =>
    obtain ⟨ihA, ihBC⟩ := ih
    have hfold : (xs ++ [t]).foldl (mergeSighting project file commit) [] =
        mergeSighting project file commit (xs.foldl (mergeSighting project file commit) []) t := by
      rw [List.foldl_append]
      rfl
    rw [hfold]
    by_cases hex :
      (xs.foldl (mergeSighting project file commit) []).any
        (insightMatches t.component t.source file) = true
    · -- an existing record is updated in place
      rw [mergeSighting_pos project file commit _ t hex]
      have hg : ∀ (c s : String) (x : ComponentInsight),
          insightMatches c s file
            ({ x with occurrences := x.occurrences + 1,
                      props := propsUnion x.props t.props }) = insightMatches c s file x := by
        intro c s x
        simp [insightMatches]
      have hkey :
          ((xs.foldl (mergeSighting project file commit) []).filter
            (insightMatches t.component t.source file)).length = 1 := by
        have hB := (ihBC t.component t.source).1
        rcases List.any_eq_true.mp hex with ⟨e, heR, hpe⟩
        by_cases h0 :
            (xs.filter (fun u => u.component == t.component && u.source == t.source)).length = 0
        · exfalso
          rw [h0, if_pos rfl] at hB
          exact absurd hpe
            (List.filter_eq_nil_iff.mp (List.length_eq_zero.mp hB) e heR)
        · rw [if_neg h0] at hB
          exact hB
      refine ⟨?_, ?_⟩
      · intro e he
        rcases updateFirst_mem _ _ _ e he with h | ⟨x, hx, hpx, rfl⟩
        · exact ihA e h
        · simpa using ihA x hx
      · intro c s
        by_cases hcs : t.component = c ∧ t.source = s
        · obtain ⟨h1, h2⟩ := hcs
          subst h1
          subst h2
          have hkeyt : (t.component == t.component && t.source == t.source) = true := by simp
          have hlen :
              ((xs ++ [t]).filter
                (fun u => u.component == t.component && u.source == t.source)).length =
              (xs.filter (fun u => u.component == t.component && u.source == t.source)).length
                + 1 := by
            rw [List.filter_append]
            simp [hkeyt]
          constructor
          · rw [filter_updateFirst _ _ _ (hg t.component t.source), hkey, hlen]
            simp
          · intro e he hpe
            refine updateFirst_unique_match (insightMatches t.component t.source file) _
              (fun x => x.occurrences =
                  (xs.filter (fun u => u.component == t.component && u.source == t.source)).length ∧
                ∀ y, y ∈ x.props ↔
                  ∃ u ∈ xs, (u.component == t.component && u.source == t.source) = true ∧
                    y ∈ u.props)
              (fun x => x.occurrences =
                  ((xs ++ [t]).filter
                    (fun u => u.component == t.component && u.source == t.source)).length ∧
                ∀ y, y ∈ x.props ↔
                  ∃ u ∈ xs ++ [t], (u.component == t.component && u.source == t.source) = true ∧
                    y ∈ u.props)
              ?_ _ (le_of_eq hkey)
              (fun e' he' hp' => (ihBC t.component t.source).2 e' he' hp') e he hpe
            intro x hpx hΦ
            constructor
            · show x.occurrences + 1 = _
              rw [hlen, hΦ.1]
            · intro y
              show y ∈ propsUnion x.props t.props ↔ _
              rw [mem_propsUnion, hΦ.2 y]
              constructor
              · rintro (⟨u, hu, hku, hyu⟩ | hy)
                · exact ⟨u, List.mem_append_left _ hu, hku, hyu⟩
                · exact ⟨t, List.mem_append_right _ (by simp), hkeyt, hy⟩
              · rintro ⟨u, hu, hku, hyu⟩
                rcases List.mem_append.mp hu with hu | hu
                · exact Or.inl ⟨u, hu, hku, hyu⟩
                · have hut := List.mem_singleton.mp hu
                  subst hut
                  exact Or.inr hyu
        · -- a different key is untouched
          have htf : (t.component == c && t.source == s) = false := by
            rcases not_and_or.mp hcs with h | h <;>
              simp [beq_eq_false_iff_ne, h, Bool.and_eq_false_iff]
          have hlen :
              ((xs ++ [t]).filter (fun u => u.component == c && u.source == s)).length =
              (xs.filter (fun u => u.component == c && u.source == s)).length := by
            rw [List.filter_append]
            simp [htf]
          have hdisj : ∀ x, insightMatches t.component t.source file x = true →
              insightMatches c s file x = false := by
            intro x hx
            rcases (insightMatches_eq_true _ _ _ x).mp hx with ⟨hc, hs, hf⟩
            cases hq2 : insightMatches c s file x
            · rfl
            · exfalso
              rcases (insightMatches_eq_true _ _ _ x).mp hq2 with ⟨hc', hs', _⟩
              exact hcs ⟨hc.symm.trans hc', hs.symm.trans hs'⟩
          constructor
          · rw [filter_updateFirst _ _ _ (hg c s), (ihBC c s).1, hlen]
          · intro e he hpe
            refine updateFirst_other _ _ _ hdisj (hg c s)
              (fun x => x.occurrences =
                  ((xs ++ [t]).filter (fun u => u.component == c && u.source == s)).length ∧
                ∀ y, y ∈ x.props ↔
                  ∃ u ∈ xs ++ [t], (u.component == c && u.source == s) = true ∧ y ∈ u.props)
              _ ?_ e he hpe
            intro e' he' hp'
            obtain ⟨ho, hpr⟩ := (ihBC c s).2 e' he' hp'
            refine ⟨by rw [hlen, ho], ?_⟩
            intro y
            rw [hpr y]
            constructor
            · rintro ⟨u, hu, hku, hyu⟩
              exact ⟨u, List.mem_append_left _ hu, hku, hyu⟩
            · rintro ⟨u, hu, hku, hyu⟩
              rcases List.mem_append.mp hu with hu | hu
              · exact ⟨u, hu, hku, hyu⟩
              · have hut := List.mem_singleton.mp hu
                subst hut
                exact absurd hku (by simp [htf])
    · -- no existing record: a fresh one is appended
      have hexf :
          (xs.foldl (mergeSighting project file commit) []).any
            (insightMatches t.component t.source file) = false := by
        cases h :
          (xs.foldl (mergeSighting project file commit) []).any
            (insightMatches t.component t.source file)
        · rfl
        · exact absurd h hex
      rw [mergeSighting_neg project file commit _ t hexf]
      have hn0 :
          (xs.filter (fun u => u.component == t.component && u.source == t.source)).length
            = 0 := by
        have hB := (ihBC t.component t.source).1
        by_cases h0 :
            (xs.filter (fun u => u.component == t.component && u.source == t.source)).length = 0
        · exact h0
        · exfalso
          rw [if_neg h0] at hB
          have hne : (xs.foldl (mergeSighting project file commit) []).filter
              (insightMatches t.component t.source file) ≠ [] := by
            intro hnil
            rw [hnil] at hB
            simp at hB
          rcases List.exists_mem_of_ne_nil _ hne with ⟨e, he⟩
          have h1 := List.mem_filter.mp he
          rw [List.any_eq_true] at hex
          exact hex ⟨e, h1.1, h1.2⟩
      have hR0 :
          ((xs.foldl (mergeSighting project file commit) []).filter
            (insightMatches t.component t.source file)).length = 0 := by
        rw [(ihBC t.component t.source).1, hn0]
        rfl
      have hRnil :
          (xs.foldl (mergeSighting project file commit) []).filter
            (insightMatches t.component t.source file) = [] :=
        List.length_eq_zero.mp hR0
      refine ⟨?_, ?_⟩
      · intro e he
        rcases List.mem_append.mp he with h | h
        · exact ihA e h
        · rcases List.mem_singleton.mp h with rfl
          exact ⟨rfl, rfl, rfl, rfl, rfl⟩
      · intro c s
        by_cases hcs : t.component = c ∧ t.source = s
        · obtain ⟨h1, h2⟩ := hcs
          subst h1
          subst h2
          have hkeyt : (t.component == t.component && t.source == t.source) = true := by simp
          have hnew : insightMatches t.component t.source file
              ⟨project, file, t.component, t.source, categorize t.source, 1,
                sortStrings (dedupKeepFirst t.props), commit, "react"⟩ = true := by
            simp [insightMatches]
          have hlen :
              ((xs ++ [t]).filter
                (fun u => u.component == t.component && u.source == t.source)).length = 1 := by
            rw [List.filter_append, List.length_append, hn0]
            simp [hkeyt]
          constructor
          · rw [List.filter_append, List.length_append, hR0, hlen]
            simp [hnew]
          · intro e he hpe
            rcases List.mem_append.mp he with h | h
            · exact absurd hpe (by
                have := List.filter_eq_nil_iff.mp hRnil e h
                simpa using this)
            · rcases List.mem_singleton.mp h with rfl
              refine ⟨by rw [hlen], ?_⟩
              intro y
              show y ∈ sortStrings (dedupKeepFirst t.props) ↔ _
              rw [mem_sortStrings, mem_dedupKeepFirst]
              constructor
              · intro hy
                exact ⟨t, List.mem_append_right _ (by simp), hkeyt, hy⟩
              · rintro ⟨u, hu, hku, hyu⟩
                rcases List.mem_append.mp hu with hu | hu
                · exact absurd hku (by
                    have := List.filter_eq_nil_iff.mp (List.length_eq_zero.mp hn0) u hu
                    simpa using this)
                · have hut := List.mem_singleton.mp hu
                  subst hut
                  exact hyu
        · have htf : (t.component == c && t.source == s) = false := by
            rcases not_and_or.mp hcs with h | h <;>
              simp [beq_eq_false_iff_ne, h, Bool.and_eq_false_iff]
          have hnewq : insightMatches c s file
              ⟨project, file, t.component, t.source, categorize t.source, 1,
                sortStrings (dedupKeepFirst t.props), commit, "react"⟩ = false := by
            cases hq2 : insightMatches c s file
                ⟨project, file, t.component, t.source, categorize t.source, 1,
                  sortStrings (dedupKeepFirst t.props), commit, "react"⟩
            · rfl
            · exfalso
              rcases (insightMatches_eq_true _ _ _ _).mp hq2 with ⟨hc', hs', _⟩
              exact hcs ⟨hc', hs'⟩
          have hlen :
              ((xs ++ [t]).filter (fun u => u.component == c && u.source == s)).length =
              (xs.filter (fun u => u.component == c && u.source == s)).length := by
            rw [List.filter_append]
            simp [htf]
          constructor
          · rw [List.filter_append, List.length_append, (ihBC c s).1, hlen]
            simp [hnewq]
          · intro e he hpe
            rcases List.mem_append.mp he with h | h
            · obtain ⟨ho, hpr⟩ := (ihBC c s).2 e h hpe
              refine ⟨by rw [hlen, ho], ?_⟩
              intro y
              rw [hpr y]
              constructor
              · rintro ⟨u, hu, hku, hyu⟩
                exact ⟨u, List.mem_append_left _ hu, hku, hyu⟩
              · rintro ⟨u, hu, hku, hyu⟩
                rcases List.mem_append.mp hu with hu | hu
                · exact ⟨u, hu, hku, hyu⟩
                · have hut := List.mem_singleton.mp hu
                  subst hut
                  exact absurd hku (by simp [htf])
            · rcases List.mem_singleton.mp h with rfl
              exact absurd hpe (by rw [hnewq]; exact Bool.false_ne_true)



theorem map_id_of_mem {α : Type} (f : α → α) :
    ∀ l : List α, (∀ x ∈ l, f x = x) → l.map f = l := by
  intro l
  induction l with
  | nil => intro _; rfl
  | cons x xs ih =>
    intro h
    rw [List.map_cons, h x (by simp), ih (fun y hy => h y (by simp [hy]))]

theorem react_scanFile (extract : String → List Sighting) (root : String)
    (tst : Option (String → Bool)) (excl : List (String → Bool)) (ropts : Option Options)
    (now commit fp src : String) :
    (scanFile
        [("@stile/plugin-react-component-analysis", reactComponentAnalysisPlugin extract)]
        ⟨root, [⟨tst, [⟨"@stile/plugin-react-component-analysis", ropts⟩]⟩], excl⟩
        now commit fp src).components =
      (if (fileMatchesRule fp tst && jsxTest fp) = true then
        (extract src).foldl (mergeSighting root fp commit) []
      else []) := by
  have hfill : ((extract src).foldl (mergeSighting root fp commit) []).map
      (fillComponent root fp commit) = (extract src).foldl (mergeSighting root fp commit) [] := by
    apply map_id_of_mem
    intro e he
    obtain ⟨h1, h2, h3, _, _⟩ := (mergeFold_invariant root fp commit (extract src)).1 e he
    cases e
    simp only at h1 h2 h3
    subst h1
    subst h2
    subst h3
    simp [fillComponent, jsOr]
  unfold scanFile
  simp only [List.foldl_cons, List.foldl_nil]
  unfold scanRuleStep
  by_cases hm : fileMatchesRule fp tst = true
  · rw [if_pos hm, List.foldl_cons, List.foldl_nil]
    by_cases hj : jsxTest fp = true
    · simp [runPluginRef, regGet?, pluginAccepts, reactComponentAnalysisPlugin, hm, hj,
        mapFrom_zero, hfill]
    · rw [Bool.not_eq_true] at hj
      simp [runPluginRef, regGet?, pluginAccepts, reactComponentAnalysisPlugin, hm, hj]
  · rw [Bool.not_eq_true] at hm
    rw [hm]
    simp [hm]

theorem scanfold_components (reg : Registry) (readFile : String → Option String)
    (cfg : StileConfig) (now commit : String) :
    ∀ (files : List String) (acc : ScanState),
      (files.foldl (scanFileStep reg readFile cfg now commit) acc).components =
        acc.components ++ files.flatMap (fun f =>
          ((readFile f).map
            (fun src => (scanFile reg cfg now commit f src).components)).getD []) := by
  intro files
  induction files with
  | nil => intro acc; simp
  | cons f fs ih =>
    intro acc
    rw [List.foldl_cons, ih, List.flatMap_cons]
    cases hrf : readFile f with
    | none => simp [scanFileStep, hrf]
    | some src => simp [scanFileStep, hrf]

theorem filterlen_flatMap_zero {α β : Type} (chunk : α → List β) (p : β → Bool) :
    ∀ files : List α, (∀ f ∈ files, ((chunk f).filter p).length = 0) →
      ((files.flatMap chunk).filter p).length = 0 := by
  intro files
  induction files with
  | nil => simp
  | cons a as ih =>
    intro hzero
    rw [List.flatMap_cons, List.filter_append, List.length_append]
    rw [hzero a (by simp), ih (fun f hf => hzero f (by simp [hf]))]

theorem filterlen_flatMap_single {α β : Type} [DecidableEq α] (chunk : α → List β)
    (p : β → Bool) (f : α) :
    ∀ files : List α, f ∈ files → files.Nodup →
      (∀ g ∈ files, g ≠ f → ((chunk g).filter p).length = 0) →
      ((files.flatMap chunk).filter p).length = ((chunk f).filter p).length := by
  intro files
  induction files with
  | nil => intro hmem; simp at hmem
  | cons a as ih =>
    intro hmem hnd hzero
    rw [List.flatMap_cons, List.filter_append, List.length_append]
    rcases List.mem_cons.mp hmem with h | h
    · subst h
      have hnotin : f ∉ as := (List.nodup_cons.mp hnd).1
      rw [filterlen_flatMap_zero chunk p as
        (fun g hg => hzero g (by simp [hg]) (fun hgf => hnotin (hgf ▸ hg)))]
      simp
    · have hne : a ≠ f := fun he => (List.nodup_cons.mp hnd).1 (he ▸ h)
      rw [hzero a (by simp) hne,
        ih h (List.nodup_cons.mp hnd).2 (fun g hg hgf => hzero g (by simp [hg]) hgf)]
      simp

/-- C6: two or more sightings of the same (project, file, component,
source) combination in one scan of a file yield exactly one component
usage record for that combination, whose occurrences count equals the
number of sightings and whose props are the union of the observed prop
sets. -/
theorem C6_component_merge_law (extract : String → List Sighting) (root : String)
    (tst : Option (String → Bool)) (excl : List (String → Bool)) (ropts : Option Options)
    (tree : List String) (readFile : String → Option String) (now commit : String)
    (duration : Nat) (f src c s : String)
    (hnd : (findFiles
        ⟨root, [⟨tst, [⟨"@stile/plugin-react-component-analysis", ropts⟩]⟩], excl⟩
        tree).Nodup)
    (hf : f ∈ findFiles
        ⟨root, [⟨tst, [⟨"@stile/plugin-react-component-analysis", ropts⟩]⟩], excl⟩ tree)
    (hread : readFile f = some src)
    (hjsx : jsxTest f = true)
    (hn : 2 ≤ ((extract src).filter (fun t => t.component == c && t.source == s)).length) :
    ((scan (fun _ => none)
          [("@stile/plugin-react-component-analysis", reactComponentAnalysisPlugin extract)]
          tree readFile
          ⟨root, [⟨tst, [⟨"@stile/plugin-react-component-analysis", ropts⟩]⟩], excl⟩
          now commit duration).1.components.filter
        (fun e => e.project == root && e.file == f && e.component == c && e.source == s)).length
        = 1 ∧
      ∀ e ∈ (scan (fun _ => none)
          [("@stile/plugin-react-component-analysis", reactComponentAnalysisPlugin extract)]
          tree readFile
          ⟨root, [⟨tst, [⟨"@stile/plugin-react-component-analysis", ropts⟩]⟩], excl⟩
          now commit duration).1.components,
        e.file = f → e.component = c → e.source = s →
        (e.occurrences =
            ((extract src).filter (fun t => t.component == c && t.source == s)).length ∧
          ∀ x, x ∈ e.props ↔
            ∃ t ∈ extract src, (t.component == c && t.source == s) = true ∧ x ∈ t.props) := by
  have hens : (ensurePlugins (fun _ => none)
      [("@stile/plugin-react-component-analysis", reactComponentAnalysisPlugin extract)]
      (pluginNamesOf
        ⟨root, [⟨tst, [⟨"@stile/plugin-react-component-analysis", ropts⟩]⟩], excl⟩)).1 =
      [("@stile/plugin-react-component-analysis", reactComponentAnalysisPlugin extract)] := rfl
  have hcomps : (scan (fun _ => none)
      [("@stile/plugin-react-component-analysis", reactComponentAnalysisPlugin extract)]
      tree readFile
      ⟨root, [⟨tst, [⟨"@stile/plugin-react-component-analysis", ropts⟩]⟩], excl⟩
      now commit duration).1.components =
      (findFiles ⟨root, [⟨tst, [⟨"@stile/plugin-react-component-analysis", ropts⟩]⟩], excl⟩
        tree).flatMap (fun g =>
          ((readFile g).map (fun sg =>
            (scanFile
              [("@stile/plugin-react-component-analysis", reactComponentAnalysisPlugin extract)]
              ⟨root, [⟨tst, [⟨"@stile/plugin-react-component-analysis", ropts⟩]⟩], excl⟩
              now commit g sg).components)).getD []) := by
    show (ScanReport.components _) = _
    simp only [scan, hens]
    rw [scanfold_components]
    simp
  have hm : fileMatchesRule f tst = true := by
    unfold findFiles at hf
    rcases List.mem_filter.mp hf with ⟨_, hany⟩
    rcases List.any_eq_true.mp hany with ⟨rule, hrule, hmr⟩
    have h1 := List.mem_singleton.mp hrule
    subst h1
    simpa using hmr
  have hchunk_f :
      (((readFile f).map (fun sg =>
        (scanFile
          [("@stile/plugin-react-component-analysis", reactComponentAnalysisPlugin extract)]
          ⟨root, [⟨tst, [⟨"@stile/plugin-react-component-analysis", ropts⟩]⟩], excl⟩
          now commit f sg).components)).getD []) =
      (extract src).foldl (mergeSighting root f commit) [] := by
    simp only [hread, Option.map_some', Option.getD_some]
    rw [react_scanFile]
    rw [if_pos (by rw [hm, hjsx]; rfl)]
  have hchunk_all : ∀ g e,
      e ∈ (((readFile g).map (fun sg =>
        (scanFile
          [("@stile/plugin-react-component-analysis", reactComponentAnalysisPlugin extract)]
          ⟨root, [⟨tst, [⟨"@stile/plugin-react-component-analysis", ropts⟩]⟩], excl⟩
          now commit g sg).components)).getD []) →
      e.file = g ∧ e.project = root := by
    intro g e he
    cases hrg : readFile g with
    | none => simp [hrg] at he
    | some sg =>
      simp only [hrg, Option.map_some', Option.getD_some] at he
      rw [react_scanFile] at he
      by_cases hc : (fileMatchesRule g tst && jsxTest g) = true
      · rw [if_pos hc] at he
        obtain ⟨h1, h2, _, _, _⟩ := (mergeFold_invariant root g commit (extract sg)).1 e he
        exact ⟨h2, h1⟩
      · rw [if_neg hc] at he
        simp at he
  constructor
  · rw [hcomps]
    rw [filterlen_flatMap_single _ _ f _ hf hnd ?_]
    · rw [hchunk_f]
      have hcong : ∀ e ∈ (extract src).foldl (mergeSighting root f commit) [],
          (e.project == root && e.file == f && e.component == c && e.source == s) =
            insightMatches c s f e := by
        intro e he
        obtain ⟨h1, h2, _, _, _⟩ := (mergeFold_invariant root f commit (extract src)).1 e he
        simp [insightMatches, h1, h2]
      rw [List.filter_congr hcong]
      rw [((mergeFold_invariant root f commit (extract src)).2 c s).1]
      rw [if_neg (by omega)]
    · intro g hg hgf
      rw [List.length_eq_zero, List.filter_eq_nil_iff]
      intro e he
      have h1 := (hchunk_all g e he).1
      intro hP
      simp only [Bool.and_eq_true, beq_iff_eq] at hP
      exact hgf (h1.symm.trans hP.1.1.2)
  · intro e he hef hec hes
    rw [hcomps] at he
    rcases List.mem_flatMap.mp he with ⟨g, hg, heg⟩
    have h1 := (hchunk_all g e heg).1
    rw [hef] at h1
    subst h1
    rw [hchunk_f] at heg
    exact ((mergeFold_invariant root f commit (extract src)).2 c s).2 e heg
      ((insightMatches_eq_true c s f e).mpr ⟨hec, hes, hef⟩)


/-- C6 witness: two sightings of Button from the mui prefix in one file. -/
theorem C6_witness :
    ((scan (fun _ => none)
          [("@stile/plugin-react-component-analysis", reactComponentAnalysisPlugin
            (fun _ => [⟨"Button", "@mui/core", ["a"]⟩, ⟨"Button", "@mui/core", ["b", "spread"]⟩]))]
          ["App.tsx"] (fun _ => some "code")
          ⟨"/r", [⟨none, [⟨"@stile/plugin-react-component-analysis", none⟩]⟩], []⟩
          "T0" "c0" 0).1.components.filter
        (fun e => e.project == "/r" && e.file == "/r/App.tsx" && e.component == "Button" &&
          e.source == "@mui/core")).length = 1 ∧
      ∀ e ∈ (scan (fun _ => none)
          [("@stile/plugin-react-component-analysis", reactComponentAnalysisPlugin
            (fun _ => [⟨"Button", "@mui/core", ["a"]⟩, ⟨"Button", "@mui/core", ["b", "spread"]⟩]))]
          ["App.tsx"] (fun _ => some "code")
          ⟨"/r", [⟨none, [⟨"@stile/plugin-react-component-analysis", none⟩]⟩], []⟩
          "T0" "c0" 0).1.components,
        e.file = "/r/App.tsx" → e.component = "Button" → e.source = "@mui/core" →
        (e.occurrences =
            (((fun (_ : String) => [(⟨"Button", "@mui/core", ["a"]⟩ : Sighting),
                ⟨"Button", "@mui/core", ["b", "spread"]⟩]) "code").filter
              (fun t => t.component == "Button" && t.source == "@mui/core")).length ∧
          ∀ x, x ∈ e.props ↔
            ∃ t ∈ (fun (_ : String) => [(⟨"Button", "@mui/core", ["a"]⟩ : Sighting),
                ⟨"Button", "@mui/core", ["b", "spread"]⟩]) "code",
              (t.component == "Button" && t.source == "@mui/core") = true ∧ x ∈ t.props) :=
  C6_component_merge_law
    (fun _ => [⟨"Button", "@mui/core", ["a"]⟩, ⟨"Button", "@mui/core", ["b", "spread"]⟩])
    "/r" none [] none ["App.tsx"] (fun _ => some "code") "T0" "c0" 0
    "/r/App.tsx" "code" "Button" "@mui/core"
    (by decide) (by decide) rfl (by decide) (by decide)


/-! ### C9: two-run determinism up to erasure -/

theorem eraseFinding_fields (f : Finding) :
    (eraseFinding f).plugin = f.plugin ∧ (eraseFinding f).message = f.message ∧
      (eraseFinding f).severity = f.severity ∧ (eraseFinding f).file = f.file ∧
      (eraseFinding f).project = f.project ∧ (eraseFinding f).line = f.line ∧
      (eraseFinding f).column = f.column :=
  ⟨rfl, rfl, rfl, rfl, rfl, rfl, rfl⟩

theorem fillFinding_sim (name proj fp now₁ com₁ now₂ com₂ : String) (f₁ f₂ : Finding)
    (h : eraseFinding f₁ = eraseFinding f₂) :
    eraseFinding (fillFinding name proj fp now₁ com₁ f₁) =
      eraseFinding (fillFinding name proj fp now₂ com₂ f₂) := by
  cases f₁
  cases f₂
  simp only [eraseFinding, Finding.mk.injEq] at h
  obtain ⟨h1, h2, h3, h4, h5, -, h6, h7, -⟩ := h
  subst h1
  subst h2
  subst h3
  subst h4
  subst h5
  subst h6
  subst h7
  rfl

theorem fillComponent_sim (proj fp com₁ com₂ : String) (c₁ c₂ : ComponentInsight)
    (h : eraseComponent c₁ = eraseComponent c₂) :
    eraseComponent (fillComponent proj fp com₁ c₁) =
      eraseComponent (fillComponent proj fp com₂ c₂) := by
  cases c₁
  cases c₂
  simp only [eraseComponent, ComponentInsight.mk.injEq] at h
  obtain ⟨h1, h2, h3, h4, h5, h6, h7, -, h8⟩ := h
  subst h1
  subst h2
  subst h3
  subst h4
  subst h5
  subst h6
  subst h7
  subst h8
  rfl

theorem mapFrom_nil {α : Type} (n : Nat) (g : α → α) : mapFrom n g [] = [] := by
  cases n <;> rfl

theorem mapFrom_fillFinding_sim (name proj fp now₁ com₁ now₂ com₂ : String) :
    ∀ (l₁ l₂ : List Finding) (n : Nat), l₁.map eraseFinding = l₂.map eraseFinding →
      (mapFrom n (fillFinding name proj fp now₁ com₁) l₁).map eraseFinding =
        (mapFrom n (fillFinding name proj fp now₂ com₂) l₂).map eraseFinding := by
  intro l₁
  induction l₁ with
  | nil =>
    intro l₂ n h
    have : l₂ = [] := by
      cases l₂
      · rfl
      · simp at h
    subst this
    rw [mapFrom_nil, mapFrom_nil]
  | cons x xs ih =>
    intro l₂ n h
    cases l₂ with
    | nil => simp at h
    | cons y ys =>
      simp only [List.map_cons, List.cons.injEq] at h
      obtain ⟨hxy, hxys⟩ := h
      cases n with
      | zero =>
        simp only [mapFrom, List.map_cons]
        rw [fillFinding_sim name proj fp now₁ com₁ now₂ com₂ x y hxy, ih ys 0 hxys]
      | succ m =>
        simp only [mapFrom, List.map_cons]
        rw [hxy, ih ys m hxys]

theorem mapFrom_fillComponent_sim (proj fp com₁ com₂ : String) :
    ∀ (l₁ l₂ : List ComponentInsight) (n : Nat),
      l₁.map eraseComponent = l₂.map eraseComponent →
      (mapFrom n (fillComponent proj fp com₁) l₁).map eraseComponent =
        (mapFrom n (fillComponent proj fp com₂) l₂).map eraseComponent := by
  intro l₁
  induction l₁ with
  | nil =>
    intro l₂ n h
    have : l₂ = [] := by
      cases l₂
      · rfl
      · simp at h
    subst this
    rw [mapFrom_nil, mapFrom_nil]
  | cons x xs ih =>
    intro l₂ n h
    cases l₂ with
    | nil => simp at h
    | cons y ys =>
      simp only [List.map_cons, List.cons.injEq] at h
      obtain ⟨hxy, hxys⟩ := h
      cases n with
      | zero =>
        simp only [mapFrom, List.map_cons]
        rw [fillComponent_sim proj fp com₁ com₂ x y hxy, ih ys 0 hxys]
      | succ m =>
        simp only [mapFrom, List.map_cons]
        rw [hxy, ih ys m hxys]

theorem regGet?_sim {reg₁ reg₂ : Registry} (h : RegistrySim reg₁ reg₂) (k : String) :
    OptionPluginSim (regGet? reg₁ k) (regGet? reg₂ k) := by
  induction h with
  | nil => exact trivial
  | cons hhd htl ih =>
    rename_i e₁ e₂ r₁ r₂
    obtain ⟨hk, hp⟩ := hhd
    obtain ⟨k₁, p₁⟩ := e₁
    obtain ⟨k₂, p₂⟩ := e₂
    simp only at hk hp
    subst hk
    unfold regGet?
    by_cases hkk : k₁ = k
    · rw [if_pos hkk, if_pos hkk]
      exact hp
    · rw [if_neg hkk, if_neg hkk]
      exact ih

theorem regSet_sim {reg₁ reg₂ : Registry} (h : RegistrySim reg₁ reg₂) (k : String)
    {p₁ p₂ : StilePlugin} (hp : PluginSim p₁ p₂) :
    RegistrySim (regSet reg₁ k p₁) (regSet reg₂ k p₂) := by
  induction h with
  | nil => exact List.Forall₂.cons ⟨rfl, hp⟩ List.Forall₂.nil
  | cons hhd htl ih =>
    rename_i e₁ e₂ r₁ r₂
    obtain ⟨hk, hq⟩ := hhd
    obtain ⟨k₁, q₁⟩ := e₁
    obtain ⟨k₂, q₂⟩ := e₂
    simp only at hk hq
    subst hk
    unfold regSet
    by_cases hkk : k₁ = k
    · rw [if_pos hkk, if_pos hkk]
      exact List.Forall₂.cons ⟨rfl, hp⟩ htl
    · rw [if_neg hkk, if_neg hkk]
      exact List.Forall₂.cons ⟨rfl, hq⟩ ih

theorem ensure_sim {res₁ res₂ : String → Option StilePlugin} (hres : ResolveSim res₁ res₂) :
    ∀ (names : List String) (acc₁ acc₂ : Registry × List LogEvent),
      RegistrySim acc₁.1 acc₂.1 → acc₁.2 = acc₂.2 →
      RegistrySim (names.foldl (ensureStep res₁) acc₁).1
          (names.foldl (ensureStep res₂) acc₂).1 ∧
        (names.foldl (ensureStep res₁) acc₁).2 = (names.foldl (ensureStep res₂) acc₂).2 := by
  intro names
  induction names with
  | nil => intro acc₁ acc₂ h1 h2; exact ⟨h1, h2⟩
  | cons m ms ih =>
    intro acc₁ acc₂ h1 h2
    rw [List.foldl_cons, List.foldl_cons]
    have hstep : RegistrySim (ensureStep res₁ acc₁ m).1 (ensureStep res₂ acc₂ m).1 ∧
        (ensureStep res₁ acc₁ m).2 = (ensureStep res₂ acc₂ m).2 := by
      unfold ensureStep
      have hget := regGet?_sim h1 m
      cases hg1 : regGet? acc₁.1 m with
      | some q₁ =>
        cases hg2 : regGet? acc₂.1 m with
        | some q₂ => simp [hg1, hg2, h1, h2]
        | none => rw [hg1, hg2] at hget; exact absurd hget (by simp [OptionPluginSim])
      | none =>
        cases hg2 : regGet? acc₂.1 m with
        | some q₂ => rw [hg1, hg2] at hget; exact absurd hget (by simp [OptionPluginSim])
        | none =>
          have hr := hres m
          cases hr1 : res₁ m with
          | some p₁ =>
            cases hr2 : res₂ m with
            | some p₂ =>
              rw [hr1, hr2] at hr
              have hr' : PluginSim p₁ p₂ := hr
              simp only [hg1, hg2, Option.isSome_none, Bool.false_eq_true, if_false,
                hr1, hr2]
              refine ⟨?_, h2⟩
              rw [hr'.1]
              exact regSet_sim h1 p₂.name hr'
            | none => rw [hr1, hr2] at hr; exact absurd hr (by simp [OptionPluginSim])
          | none =>
            cases hr2 : res₂ m with
            | some p₂ => rw [hr1, hr2] at hr; exact absurd hr (by simp [OptionPluginSim])
            | none =>
              simp only [hg1, hg2, Option.isSome_none, Bool.false_eq_true, if_false,
                hr1, hr2]
              exact ⟨h1, by rw [h2]⟩
    exact ih (ensureStep res₁ acc₁ m) (ensureStep res₂ acc₂ m) hstep.1 hstep.2


theorem runPluginRef_sim {reg₁ reg₂ : Registry} (hreg : RegistrySim reg₁ reg₂)
    (root fp src now₁ com₁ now₂ com₂ : String) (s₁ s₂ : FileState) (ref : PluginRef)
    (hf : s₁.findings.map eraseFinding = s₂.findings.map eraseFinding)
    (hc : s₁.components.map eraseComponent = s₂.components.map eraseComponent)
    (hl : s₁.log = s₂.log) :
    (runPluginRef reg₁ root fp src now₁ com₁ s₁ ref).findings.map eraseFinding =
        (runPluginRef reg₂ root fp src now₂ com₂ s₂ ref).findings.map eraseFinding ∧
      (runPluginRef reg₁ root fp src now₁ com₁ s₁ ref).components.map eraseComponent =
        (runPluginRef reg₂ root fp src now₂ com₂ s₂ ref).components.map eraseComponent ∧
      (runPluginRef reg₁ root fp src now₁ com₁ s₁ ref).log =
        (runPluginRef reg₂ root fp src now₂ com₂ s₂ ref).log := by
  have hget := regGet?_sim hreg ref.name
  cases hg1 : regGet? reg₁ ref.name with
  | none =>
    cases hg2 : regGet? reg₂ ref.name with
    | none => simp only [runPluginRef, hg1, hg2]; exact ⟨hf, hc, hl⟩
    | some d₂ => rw [hg1, hg2] at hget; exact absurd hget (by simp [OptionPluginSim])
  | some d₁ =>
    cases hg2 : regGet? reg₂ ref.name with
    | none => rw [hg1, hg2] at hget; exact absurd hget (by simp [OptionPluginSim])
    | some d₂ =>
      rw [hg1, hg2] at hget
      have hd : PluginSim d₁ d₂ := hget
      obtain ⟨hname, hacc, hrun⟩ := hd
      obtain ⟨hth, hof, hoc⟩ := hrun fp root src ref.options s₁.findings s₂.findings
        s₁.components s₂.components com₁ com₂ hf hc
      by_cases ha : pluginAccepts d₁ fp = true
      · have ha2 : pluginAccepts d₂ fp = true := by rw [← hacc fp]; exact ha
        cases ht1 : (d₁.run ⟨fp, root, src, s₁.findings, s₁.components, com₁⟩
            ref.options).throwsAfter with
        | true =>
          have ht2 : (d₂.run ⟨fp, root, src, s₂.findings, s₂.components, com₂⟩
              ref.options).throwsAfter = true := by rw [← hth]; exact ht1
          simp only [runPluginRef, hg1, hg2, if_pos ha, if_pos ha2, ht1, ht2, if_true]
          exact ⟨hof, hoc, by rw [hl, hname]⟩
        | false =>
          have ht2 : (d₂.run ⟨fp, root, src, s₂.findings, s₂.components, com₂⟩
              ref.options).throwsAfter = false := by rw [← hth]; exact ht1
          simp only [runPluginRef, hg1, hg2, if_pos ha, if_pos ha2, ht1, ht2,
            Bool.false_eq_true, if_false]
          refine ⟨?_, ?_, hl⟩
          · have hlen : s₁.findings.length = s₂.findings.length := by
              have h := congrArg List.length hf
              simpa using h
            rw [hlen, hname]
            exact mapFrom_fillFinding_sim d₂.name root fp now₁ com₁ now₂ com₂ _ _ _ hof
          · have hlen : s₁.components.length = s₂.components.length := by
              have h := congrArg List.length hc
              simpa using h
            rw [hlen]
            exact mapFrom_fillComponent_sim root fp com₁ com₂ _ _ _ hoc
      · have ha2 : ¬ pluginAccepts d₂ fp = true := by rw [← hacc fp]; exact ha
        simp only [runPluginRef, hg1, hg2, if_neg ha, if_neg ha2]
        exact ⟨hf, hc, hl⟩

theorem scanFile_sim {reg₁ reg₂ : Registry} (hreg : RegistrySim reg₁ reg₂)
    (cfg : StileConfig) (now₁ com₁ now₂ com₂ fp src : String) :
    (scanFile reg₁ cfg now₁ com₁ fp src).findings.map eraseFinding =
        (scanFile reg₂ cfg now₂ com₂ fp src).findings.map eraseFinding ∧
      (scanFile reg₁ cfg now₁ com₁ fp src).components.map eraseComponent =
        (scanFile reg₂ cfg now₂ com₂ fp src).components.map eraseComponent ∧
      (scanFile reg₁ cfg now₁ com₁ fp src).log = (scanFile reg₂ cfg now₂ com₂ fp src).log := by
  have hplug : ∀ (refs : List PluginRef) (s₁ s₂ : FileState),
      s₁.findings.map eraseFinding = s₂.findings.map eraseFinding →
      s₁.components.map eraseComponent = s₂.components.map eraseComponent →
      s₁.log = s₂.log →
      (refs.foldl (runPluginRef reg₁ cfg.rootDir fp src now₁ com₁) s₁).findings.map
          eraseFinding =
        (refs.foldl (runPluginRef reg₂ cfg.rootDir fp src now₂ com₂) s₂).findings.map
          eraseFinding ∧
      (refs.foldl (runPluginRef reg₁ cfg.rootDir fp src now₁ com₁) s₁).components.map
          eraseComponent =
        (refs.foldl (runPluginRef reg₂ cfg.rootDir fp src now₂ com₂) s₂).components.map
          eraseComponent ∧
      (refs.foldl (runPluginRef reg₁ cfg.rootDir fp src now₁ com₁) s₁).log =
        (refs.foldl (runPluginRef reg₂ cfg.rootDir fp src now₂ com₂) s₂).log := by
    intro refs
    induction refs with
    | nil => intro s₁ s₂ h1 h2 h3; exact ⟨h1, h2, h3⟩
    | cons r rs ih =>
      intro s₁ s₂ h1 h2 h3
      rw [List.foldl_cons, List.foldl_cons]
      obtain ⟨g1, g2, g3⟩ :=
        runPluginRef_sim hreg cfg.rootDir fp src now₁ com₁ now₂ com₂ s₁ s₂ r h1 h2 h3
      exact ih _ _ g1 g2 g3
  unfold scanFile
  have hrules : ∀ (rules : List StileRule) (s₁ s₂ : FileState),
      s₁.findings.map eraseFinding = s₂.findings.map eraseFinding →
      s₁.components.map eraseComponent = s₂.components.map eraseComponent →
      s₁.log = s₂.log →
      (rules.foldl (scanRuleStep reg₁ cfg.rootDir fp src now₁ com₁) s₁).findings.map
          eraseFinding =
        (rules.foldl (scanRuleStep reg₂ cfg.rootDir fp src now₂ com₂) s₂).findings.map
          eraseFinding ∧
      (rules.foldl (scanRuleStep reg₁ cfg.rootDir fp src now₁ com₁) s₁).components.map
          eraseComponent =
        (rules.foldl (scanRuleStep reg₂ cfg.rootDir fp src now₂ com₂) s₂).components.map
          eraseComponent ∧
      (rules.foldl (scanRuleStep reg₁ cfg.rootDir fp src now₁ com₁) s₁).log =
        (rules.foldl (scanRuleStep reg₂ cfg.rootDir fp src now₂ com₂) s₂).log := by
    intro rules
    induction rules with
    | nil => intro s₁ s₂ h1 h2 h3; exact ⟨h1, h2, h3⟩
    | cons rule rules ih =>
      intro s₁ s₂ h1 h2 h3
      rw [List.foldl_cons, List.foldl_cons]
      unfold scanRuleStep
      by_cases hm : fileMatchesRule fp rule.test = true
      · rw [if_pos hm, if_pos hm]
        obtain ⟨g1, g2, g3⟩ := hplug rule.plugins s₁ s₂ h1 h2 h3
        exact ih _ _ g1 g2 g3
      · rw [if_neg hm, if_neg hm]
        exact ih _ _ h1 h2 h3
  exact hrules cfg.rules ⟨[], [], []⟩ ⟨[], [], []⟩ rfl rfl rfl

theorem scanfold_sim {reg₁ reg₂ : Registry} (hreg : RegistrySim reg₁ reg₂)
    (readFile : String → Option String) (cfg : StileConfig)
    (now₁ com₁ now₂ com₂ : String) :
    ∀ (files : List String) (a₁ a₂ : ScanState),
      a₁.findings.map eraseFinding = a₂.findings.map eraseFinding →
      a₁.components.map eraseComponent = a₂.components.map eraseComponent →
      a₁.filesScanned = a₂.filesScanned → a₁.log = a₂.log →
      (files.foldl (scanFileStep reg₁ readFile cfg now₁ com₁) a₁).findings.map eraseFinding =
          (files.foldl (scanFileStep reg₂ readFile cfg now₂ com₂) a₂).findings.map
            eraseFinding ∧
        (files.foldl (scanFileStep reg₁ readFile cfg now₁ com₁) a₁).components.map
            eraseComponent =
          (files.foldl (scanFileStep reg₂ readFile cfg now₂ com₂) a₂).components.map
            eraseComponent ∧
        (files.foldl (scanFileStep reg₁ readFile cfg now₁ com₁) a₁).filesScanned =
          (files.foldl (scanFileStep reg₂ readFile cfg now₂ com₂) a₂).filesScanned ∧
        (files.foldl (scanFileStep reg₁ readFile cfg now₁ com₁) a₁).log =
          (files.foldl (scanFileStep reg₂ readFile cfg now₂ com₂) a₂).log := by
  intro files
  induction files with
  | nil => intro a₁ a₂ h1 h2 h3 h4; exact ⟨h1, h2, h3, h4⟩
  | cons f fs ih =>
    intro a₁ a₂ h1 h2 h3 h4
    rw [List.foldl_cons, List.foldl_cons]
    apply ih
    · unfold scanFileStep
      cases hrf : readFile f with
      | none => exact h1
      | some src =>
        obtain ⟨g1, -, -⟩ := scanFile_sim hreg cfg now₁ com₁ now₂ com₂ f src
        simp only [List.map_append, h1, g1]
    · unfold scanFileStep
      cases hrf : readFile f with
      | none => exact h2
      | some src =>
        obtain ⟨-, g2, -⟩ := scanFile_sim hreg cfg now₁ com₁ now₂ com₂ f src
        simp only [List.map_append, h2, g2]
    · unfold scanFileStep
      cases hrf : readFile f with
      | none => exact h3
      | some src => simp only [h3]
    · unfold scanFileStep
      cases hrf : readFile f with
      | none => simp only [h4]
      | some src =>
        obtain ⟨-, -, g3⟩ := scanFile_sim hreg cfg now₁ com₁ now₂ com₂ f src
        simp only [h4, g3]

theorem countViolations_erase :
    ∀ l₁ l₂ : List Finding, l₁.map eraseFinding = l₂.map eraseFinding →
      countViolations l₁ = countViolations l₂ := by
  intro l₁
  induction l₁ with
  | nil =>
    intro l₂ h
    cases l₂
    · rfl
    · simp at h
  | cons x xs ih =>
    intro l₂ h
    cases l₂ with
    | nil => simp at h
    | cons y ys =>
      simp only [List.map_cons, List.cons.injEq] at h
      obtain ⟨hxy, hxys⟩ := h
      have hsev : x.severity = y.severity := by
        have h := congrArg Finding.severity hxy
        simpa [eraseFinding] using h
      have hih := ih ys hxys
      unfold countViolations at hih ⊢
      rw [List.filter_cons, List.filter_cons, hsev]
      split
      · simp only [List.length_cons, hih]
      · exact hih

theorem categoryCount_erase (cat : Category) :
    ∀ l₁ l₂ : List ComponentInsight, l₁.map eraseComponent = l₂.map eraseComponent →
      (l₁.filter (fun c => c.category == cat)).length =
        (l₂.filter (fun c => c.category == cat)).length := by
  intro l₁
  induction l₁ with
  | nil =>
    intro l₂ h
    cases l₂
    · rfl
    · simp at h
  | cons x xs ih =>
    intro l₂ h
    cases l₂ with
    | nil => simp at h
    | cons y ys =>
      simp only [List.map_cons, List.cons.injEq] at h
      obtain ⟨hxy, hxys⟩ := h
      have hcat : x.category = y.category := by
        have h := congrArg ComponentInsight.category hxy
        simpa [eraseComponent] using h
      have hih := ih ys hxys
      rw [List.filter_cons, List.filter_cons, hcat]
      split
      · simp only [List.length_cons, hih]
      · exact hih

/-- C9: two runs of scan over the same tree, file contents and
configuration, with similar registries and resolution (equal up to the
erased clock and commit data), produce the same report after erasing the
timestamp, commit and duration fields. -/
theorem C9_scan_deterministic (res₁ res₂ : String → Option StilePlugin)
    (reg₁ reg₂ : Registry) (tree : List String) (readFile : String → Option String)
    (cfg : StileConfig) (now₁ com₁ : String) (d₁ : Nat) (now₂ com₂ : String) (d₂ : Nat)
    (hres : ResolveSim res₁ res₂) (hreg : RegistrySim reg₁ reg₂) :
    eraseReport (scan res₁ reg₁ tree readFile cfg now₁ com₁ d₁).1 =
      eraseReport (scan res₂ reg₂ tree readFile cfg now₂ com₂ d₂).1 := by
  have hens := ensure_sim hres (pluginNamesOf cfg) (reg₁, []) (reg₂, []) hreg rfl
  have hens1 : RegistrySim (ensurePlugins res₁ reg₁ (pluginNamesOf cfg)).1
      (ensurePlugins res₂ reg₂ (pluginNamesOf cfg)).1 := hens.1
  have hens2 : (ensurePlugins res₁ reg₁ (pluginNamesOf cfg)).2 =
      (ensurePlugins res₂ reg₂ (pluginNamesOf cfg)).2 := hens.2
  obtain ⟨g1, g2, g3, g4⟩ :=
    scanfold_sim hens1 readFile cfg now₁ com₁ now₂ com₂ (findFiles cfg tree)
      ⟨[], [], 0, (ensurePlugins res₁ reg₁ (pluginNamesOf cfg)).2⟩
      ⟨[], [], 0, (ensurePlugins res₂ reg₂ (pluginNamesOf cfg)).2⟩
      rfl rfl rfl hens2
  have hviol := countViolations_erase _ _ g1
  have hlen2 : (List.foldl (scanFileStep (ensurePlugins res₁ reg₁ (pluginNamesOf cfg)).1
        readFile cfg now₁ com₁)
      ⟨[], [], 0, (ensurePlugins res₁ reg₁ (pluginNamesOf cfg)).2⟩
      (findFiles cfg tree)).components.length =
      (List.foldl (scanFileStep (ensurePlugins res₂ reg₂ (pluginNamesOf cfg)).1
        readFile cfg now₂ com₂)
      ⟨[], [], 0, (ensurePlugins res₂ reg₂ (pluginNamesOf cfg)).2⟩
      (findFiles cfg tree)).components.length := by
    have h := congrArg List.length g2
    simpa using h
  have hds := categoryCount_erase Category.designSystem _ _ g2
  have hcu := categoryCount_erase Category.custom _ _ g2
  simp only [scan, eraseReport]
  rw [g1, g2, g3, hviol, hlen2, hds, hcu]


theorem noInlineStylePlugin_sim (n₁ n₂ : String) :
    PluginSim (noInlineStylePlugin n₁) (noInlineStylePlugin n₂) := by
  refine ⟨rfl, fun fp => rfl, ?_⟩
  intro fp proj src opts fs₁ fs₂ cs₁ cs₂ c₁ c₂ hf hc
  refine ⟨rfl, ?_, ?_⟩
  · show (fs₁ ++ (inlineStyleMatches src).map (inlineStyleFinding n₁ fp proj)).map
        eraseFinding =
      (fs₂ ++ (inlineStyleMatches src).map (inlineStyleFinding n₂ fp proj)).map eraseFinding
    rw [List.map_append, List.map_append, hf, List.map_map, List.map_map]
    rfl
  · exact hc

/-- C9 witness: the same single-file scan at two different clock instants,
commits and durations. -/
theorem C9_witness :
    eraseReport (scan (fun _ => none)
        [("@stile/plugin-no-inline-style", noInlineStylePlugin "T1")]
        ["App.tsx"] (fun _ => some "<div style=\x7b\x7bcolor: 'red'\x7d\x7d/>")
        ⟨"/r", [⟨none, [⟨"@stile/plugin-no-inline-style", none⟩]⟩], []⟩ "T1" "c1" 7).1 =
      eraseReport (scan (fun _ => none)
        [("@stile/plugin-no-inline-style", noInlineStylePlugin "T2")]
        ["App.tsx"] (fun _ => some "<div style=\x7b\x7bcolor: 'red'\x7d\x7d/>")
        ⟨"/r", [⟨none, [⟨"@stile/plugin-no-inline-style", none⟩]⟩], []⟩ "T2" "c2" 9).1 :=
  C9_scan_deterministic (fun _ => none) (fun _ => none)
    [("@stile/plugin-no-inline-style", noInlineStylePlugin "T1")]
    [("@stile/plugin-no-inline-style", noInlineStylePlugin "T2")]
    ["App.tsx"] (fun _ => some "<div style=\x7b\x7bcolor: 'red'\x7d\x7d/>")
    ⟨"/r", [⟨none, [⟨"@stile/plugin-no-inline-style", none⟩]⟩], []⟩ "T1" "c1" 7 "T2" "c2" 9
    (fun _ => trivial)
    (List.Forall₂.cons ⟨rfl, noInlineStylePlugin_sim "T1" "T2"⟩ List.Forall₂.nil)

end Stile
